import Mathlib

/-!
# tf_docs: the extraction pipeline of `parse.go`

A shallow embedding of `parse.go`: the element classifiers that turn the flat
`Value` sequence into typed records (`extractElement`, `extractVariables`,
`extractOutputs`, `extractResources`, `extractModules`), the string and comment
normalisation (`trimStrings`, `tidyComment`, `parseComment`), the rendering of
attributes (`parseValues`), the value extractor (`parseKeys`, `extractValues`),
the description resolver (`extractDescription`), the assembler (`Parse`) and
the path and link that `FindAndParse` computes, followed by the properties
established for them.

Modelling conventions.

* A Go `map[string]T` is an association list `List (String × T)`; the lookup
  `x, ok := m[k]` is `List.lookup k m` (`none` when `ok` is false).  A nil map
  and an empty map are both `[]`: every lookup in them fails.
* A Go slice of pointers `[]*T` is a `List T`; the pointers stored in the
  slices are the non-nil ones that `extractValues` allocates.  A nil slice and
  an empty slice are both `[]`.
* A Go function returning `([]*T, error)` yields an `Outcome T`: either it
  returns the slice together with an optional error message, or the call
  panics with an index-out-of-range runtime error.  A function returning
  `(T, error)` yields a `Call T` in the same way.
* A Go `string` is a `String`; a nil pointer to a comment group is `none`.
* A Go function that returns a plain value and may panic yields an `Option`,
  `none` standing for the panic.  The parser `hcl.Parse` of the library is a
  parameter of `Parse`.
-/

namespace TfDocs

/-- Go `type Comment struct`. -/
structure Comment where
  Text : String
  Col : Int
  Line : Int
  deriving DecidableEq, Repr

/-- Go `type Variable struct`. -/
structure Variable where
  Name : String
  «Type» : String
  Description : String
  Default : String
  Required : Bool
  deriving DecidableEq, Repr

/-- Go `type Output struct`. -/
structure Output where
  Description : String
  Name : String
  deriving DecidableEq, Repr

/-- Go `type Resource struct`. -/
structure Resource where
  «Type» : String
  Name : String
  Description : String
  deriving DecidableEq, Repr

/-- Go `type Module struct`. -/
structure Module where
  Name : String
  Description : String
  Source : String
  deriving DecidableEq, Repr

/-- Go `type Value struct`: the block keyword mapped to its identifier parts,
the rendered attributes, and the leading comment. -/
structure Value where
  Key : List (String × List String)
  Val : List (String × String)
  Comment : Comment
  deriving DecidableEq, Repr

def VARIABLE : String := "variable"

def OUTPUT : String := "output"

def MODULE : String := "module"

def RESOURCE : String := "resource"

/-- Result of a Go call of type `([]*T, error)`: a normal return of the slice
with an optional error, or a runtime panic (index out of range). -/
inductive Outcome (α : Type) where
  | returned (items : List α) (err : Option String)
  | panicked
  deriving DecidableEq, Repr

/-- The `ok` flag of the Go lookup `_, ok := m[k]`. -/
def hasKey {β : Type} (m : List (String × β)) (k : String) : Bool :=
  (m.lookup k).isSome

/-- Go `extractElement`: the loop appends every value whose `Key` map has
`elementType` to `result`. -/
def extractElement (values : List Value) (elementType : String) : List Value :=
  values.foldl
    (fun result value => if hasKey value.Key elementType then result ++ [value] else result)
    []

/-- Body of the `for _, v := range vars` loop of `extractVariables`; the second
argument `acc` is the slice that the source calls `variables`, as built so far. -/
def extractVariablesLoop : List Value → List Variable → Outcome Variable
  | [], acc => .returned acc none
  | v :: vars, acc =>
    match v.Key.lookup "variable" with
    | none => .returned acc (some "name is required for a variable")
    | some name =>
      match v.Val.lookup "type" with
      | none => .returned acc (some "type is required for a variable")
      | some ty =>
        match name with
        | [] => .panicked
        | n :: _ =>
          let description := match v.Val.lookup "description" with
            | some d => d
            | none => ""
          let dflt := match v.Val.lookup "default" with
            | some d => d
            | none => ""
          let required := if dflt = "" then true else false
          extractVariablesLoop vars
            (acc ++ [{ Name := n, «Type» := ty, Description := description,
                       Default := dflt, Required := required }])

/-- Go `extractVariables`. -/
def extractVariables (values : List Value) : Outcome Variable :=
  extractVariablesLoop (extractElement values VARIABLE) []

/-- Body of the `for _, o := range outs` loop of `extractOutputs`; `acc` is
the slice `outputs` built so far. -/
def extractOutputsLoop : List Value → List Output → Outcome Output
  | [], acc => .returned acc none
  | o :: outs, acc =>
    match o.Key.lookup "output" with
    | none => .returned acc (some "name is required for a output")
    | some name =>
      match name with
      | [] => .panicked
      | n :: _ =>
        let description := match o.Val.lookup "description" with
          | some d => d
          | none => ""
        extractOutputsLoop outs (acc ++ [{ Description := description, Name := n }])

/-- Go `extractOutputs`. -/
def extractOutputs (values : List Value) : Outcome Output :=
  extractOutputsLoop (extractElement values OUTPUT) []

/-- Body of the `for _, m := range mods` loop of `extractResources`; `acc` is
the slice `resources` built so far.  The source reads `keys[1]` before
`keys[0]`; either read panics when the index is out of range. -/
def extractResourcesLoop : List Value → List Resource → Outcome Resource
  | [], acc => .returned acc none
  | m :: mods, acc =>
    match m.Key.lookup "resource" with
    | none => .returned acc (some "name is required for a resource")
    | some keys =>
      match keys with
      | k0 :: k1 :: _ =>
        extractResourcesLoop mods
          (acc ++ [{ «Type» := k0, Name := k1, Description := m.Comment.Text }])
      | _ => .panicked

/-- Go `extractResources`. -/
def extractResources (values : List Value) : Outcome Resource :=
  extractResourcesLoop (extractElement values RESOURCE) []

/-- Body of the `for _, m := range mods` loop of `extractModules`; `acc` is the
slice `modules` built so far. -/
def extractModulesLoop : List Value → List Module → Outcome Module
  | [], acc => .returned acc none
  | m :: mods, acc =>
    match m.Key.lookup "module" with
    | none => .returned acc (some "name is required for a module")
    | some name =>
      match m.Val.lookup "source" with
      | none => .returned acc (some "source is required for a variable")
      | some source =>
        match name with
        | [] => .panicked
        | n :: _ =>
          extractModulesLoop mods
            (acc ++ [{ Name := n, Description := m.Comment.Text, Source := source }])

/-- Go `extractModules`. -/
def extractModules (values : List Value) : Outcome Module :=
  extractModulesLoop (extractElement values MODULE) []

/-! ## Records described by the classifier contracts

The functions below spell out, field by field, the record that the contract of
each classifier describes for one matching `Value`; they are what the results of
the loops above are compared with. -/

/-- Identifier parts of `v` under keyword `k` (empty when `k` is absent). -/
def identifierParts (v : Value) (k : String) : List String :=
  (v.Key.lookup k).getD []

/-- Attribute `a` of `v`, or the empty string when `v` has no such attribute. -/
def attributeOr (v : Value) (a : String) : String :=
  (v.Val.lookup a).getD ""

/-- Variable of the contract: name = first identifier part, type, description
and default = the attributes (empty when absent), required = default is empty. -/
def variableOf (v : Value) : Variable :=
  { Name := (identifierParts v "variable").headD "",
    «Type» := attributeOr v "type",
    Description := attributeOr v "description",
    Default := attributeOr v "default",
    Required := decide (attributeOr v "default" = "") }

/-- Output of the contract: name = first identifier part, description = the
`description` attribute (empty when absent). -/
def outputOf (v : Value) : Output :=
  { Description := attributeOr v "description",
    Name := (identifierParts v "output").headD "" }

/-- Resource of the contract: type = first identifier part, name = second
identifier part, description = the text of the leading comment. -/
def resourceOf (v : Value) : Resource :=
  { «Type» := (identifierParts v "resource").headD "",
    Name := ((identifierParts v "resource").drop 1).headD "",
    Description := v.Comment.Text }

/-- Module reference of the contract: name = first identifier part, source = the
`source` attribute, description = the text of the leading comment. -/
def moduleOf (v : Value) : Module :=
  { Name := (identifierParts v "module").headD "",
    Description := v.Comment.Text,
    Source := attributeOr v "source" }

/-! ## Strings

A Go `string` is a Lean `String`, read as its list of characters.  The Go
functions below work on bytes; on valid UTF-8 text a prefix or suffix of bytes
is a prefix or suffix of characters and conversely, so the character-level
definitions agree with them. -/

/-- Go `strings.HasPrefix`. -/
def hasPrefix (s pre : String) : Bool :=
  pre.data.isPrefixOf s.data

/-- Go `strings.HasSuffix`. -/
def hasSuffix (s suf : String) : Bool :=
  suf.data.isSuffixOf s.data

/-- Go `strings.TrimPrefix`: `s[len(prefix):]` when `s` starts with `prefix`. -/
def trimPrefix (s pre : String) : String :=
  if hasPrefix s pre then ⟨s.data.drop pre.data.length⟩ else s

/-- Go `strings.TrimSuffix`: `s[:len(s)-len(suffix)]` when `s` ends with
`suffix`. -/
def trimSuffix (s suf : String) : String :=
  if hasSuffix s suf then ⟨s.data.take (s.data.length - suf.data.length)⟩ else s

/-- Go `unicode.IsSpace`: the Latin-1 spaces and the characters with the
Unicode White_Space property. -/
def isSpace (c : Char) : Bool :=
  c = '\t' || c = '\n' || c.val = 0x0B || c.val = 0x0C || c = '\r' || c = ' '
    || c.val = 0x85 || c.val = 0xA0 || c.val = 0x1680
    || (0x2000 ≤ c.val && c.val ≤ 0x200A)
    || c.val = 0x2028 || c.val = 0x2029 || c.val = 0x202F || c.val = 0x205F
    || c.val = 0x3000

/-- Go `strings.TrimSpace`: drop the leading and the trailing white space. -/
def trimSpace (s : String) : String :=
  ⟨((s.data.dropWhile isSpace).reverse.dropWhile isSpace).reverse⟩

/-- Go `strings.Join`. -/
def join : List String → String → String
  | [], _ => ""
  | [a], _ => a
  | a :: b :: rest, sep => a ++ sep ++ join (b :: rest) sep

/-- Pieces of a character list between occurrences of `sep`. -/
def splitChars (sep : Char) : List Char → List (List Char)
  | [] => [[]]
  | c :: cs =>
    if c = sep then [] :: splitChars sep cs
    else
      match splitChars sep cs with
      | [] => [[c]]
      | piece :: pieces => (c :: piece) :: pieces

/-- Go `strings.Split(s, sep)` for a separator `sep` of one character. -/
def split (s : String) (sep : Char) : List String :=
  (splitChars sep s.data).map String.mk

/-- Go `strings.Replace(s, old, new, -1)` for `old` and `new` of one character
each: every occurrence is replaced. -/
def replaceAll (s : String) (old new : Char) : String :=
  ⟨s.data.map (fun c => if c = old then new else c)⟩

/-- Go `strings.Replace(s, old, "", 1)` for `old` of one character: the first
occurrence is removed. -/
def removeFirst (s : String) (old : Char) : String :=
  ⟨s.data.erase old⟩

/-- Go `trimStrings`: for the escaped quote and then for the plain quote, trim
it once as a prefix and once as a suffix. -/
def trimStrings (input : String) : String :=
  ["\\\"", "\""].foldl (fun result pattern => trimSuffix (trimPrefix result pattern) pattern) input

/-- Go `tidyComment`; both tests look at the untouched `comment`. -/
def tidyComment (comment : String) : String :=
  let result := comment
  let result := if hasPrefix comment "//" then trimPrefix result "//" else result
  let result := if hasPrefix comment "/*" then trimSuffix (trimPrefix result "/*") "*/" else result
  trimSpace result

/-! ## Syntax tree

The syntax-tree types come from the parser library `hashicorp/hcl`, which is
not part of the sources; they are modelled to the depth that `parse.go` looks
into them. -/

/-- Modelled from the spec: `token.Pos` of the parser library, the position
information of a comment; only the line and the column are read. -/
structure Pos where
  Line : Int
  Column : Int
  deriving DecidableEq, Repr

/-- Modelled from the spec: `ast.Comment` of the parser library, one raw comment
string with its position. -/
structure AstComment where
  Start : Pos
  Text : String
  deriving DecidableEq, Repr

/-- Modelled from the spec: `ast.CommentGroup` of the parser library, an ordered
list of raw comments. -/
structure CommentGroup where
  List : List AstComment
  deriving DecidableEq, Repr

/-- Modelled from the spec: `(*ast.CommentGroup).Pos()` of the parser library,
the position of the first comment of the group; `none` stands for the panic of
the read `c.List[0]` on a group without entries. -/
def commentGroupPos (c : CommentGroup) : Option Pos :=
  match c.List with
  | [] => none
  | first :: _ => some first.Start

/-- Modelled from the spec: a node of an `ast.ListType`, either an
`*ast.LiteralType` with its token text or a node of another kind. -/
inductive ListNode where
  | literalType (text : String)
  | other
  deriving DecidableEq, Repr

/-- Modelled from the spec: the value of an attribute inside a block body, an
`*ast.LiteralType` with its token text, an `*ast.ListType` with its nodes, or a
node of another kind. -/
inductive AttrNode where
  | literalType (text : String)
  | listType (list : List ListNode)
  | other
  deriving DecidableEq, Repr

/-- Modelled from the spec: `ast.ObjectItem` inside a block body; `Keys` holds
the token texts of the key tokens. -/
structure AttrItem where
  Keys : List String
  Val : AttrNode
  deriving DecidableEq, Repr

/-- Result of a Go call of type `(T, error)`: a normal return of the value with
an optional error, or a runtime panic (index out of range). -/
inductive Call (α : Type) where
  | returned (value : α) (err : Option String)
  | panicked
  deriving DecidableEq, Repr

/-- Go `parseComment`; `none` is the nil comment group. -/
def parseComment (rawComment : Option CommentGroup) : Call Comment :=
  match rawComment with
  | none => .returned ⟨"", 0, 0⟩ (some "comment is nil")
  | some group =>
    let comments := group.List.map (fun c => tidyComment c.Text)
    let commentString := join comments " "
    match commentGroupPos group with
    | none => .panicked
    | some pos => .returned ⟨commentString, pos.Column, pos.Line⟩ none

/-- The inner loop of `parseValues` over the nodes of a list: the trimmed
texts of the literal nodes, nodes of other kinds being skipped. -/
def listTexts : List ListNode → List String
  | [] => []
  | .literalType text :: rest => trimStrings text :: listTexts rest
  | .other :: rest => listTexts rest

/-- Go assignment `m[k] = v` on a map: the new binding is the one lookups
find. -/
def mapSet {β : Type} (m : List (String × β)) (k : String) (v : β) : List (String × β) :=
  (k, v) :: m

/-- Body of the loop of `parseValues` for one item, `result` being the map built
so far; `none` stands for the panic of the read `item.Keys[0]` on an item
without keys. -/
def parseValuesStep (result : List (String × String)) (item : AttrItem) :
    Option (List (String × String)) :=
  match item.Val with
  | .literalType text =>
    match item.Keys with
    | [] => none
    | key :: _ => some (mapSet result (trimStrings key) (trimStrings text))
  | .listType list =>
    let valueList := listTexts list
    let joinedList := join valueList ", "
    match item.Keys with
    | [] => none
    | key :: _ => some (mapSet result (trimStrings key) ("[" ++ joinedList ++ "]"))
  | .other => some result

/-- Loop of `parseValues` over the items, from the map `result`. -/
def parseValuesLoop : List AttrItem → List (String × String) → Option (List (String × String))
  | [], result => some result
  | item :: items, result =>
    match parseValuesStep result item with
    | none => none
    | some result => parseValuesLoop items result

/-- Go `parseValues` on the items `rawValue.List.Items` of an object body. -/
def parseValues (items : List AttrItem) : Option (List (String × String)) :=
  parseValuesLoop items []

/-- Go `extractDescription`. -/
def extractDescription : List Comment → String → String
  | [], _ => ""
  | comment :: comments, moduleName =>
    if comment.Line ≠ 1 then extractDescription comments moduleName
    else
      let commentText := trimSpace comment.Text
      if hasPrefix commentText moduleName then commentText
      else extractDescription comments moduleName

/-- The `Path` that `FindAndParse` gives the module found in directory `d` when
scanning `directory`: the zero value left by `Parse`, replaced when the module
lies more than one level below `directory`. -/
def modulePath (directory d : String) : String :=
  let directoryDepth := (split directory '/').length
  let splitModule := split d '/'
  if splitModule.length > directoryDepth + 1 then
    join ((splitModule.take (splitModule.length - 1)).drop directoryDepth) "/"
  else ""

/-- The `Link` that `FindAndParse` gives a module with the given `Path` and
`Title`. -/
def moduleLink (path title : String) : String :=
  let link := replaceAll path '/' '-' ++ "_" ++ title
  if hasPrefix link "_" then removeFirst link '_' else link

/-! ## Top-level blocks, `extractValues` and `Parse` -/

/-- Go `type TFModule struct`. -/
structure TFModule where
  Path : String
  Title : String
  Link : String
  Variables : List Variable
  Outputs : List Output
  Resources : List Resource
  Modules : List Module
  Description : String
  deriving DecidableEq, Repr

/-- Modelled from the spec: the body `Val` of a top-level `ast.ObjectItem` of
the parser library, an `*ast.ObjectType` with the items of its list (the
nested attributes), or a node of another kind. -/
inductive BlockBody where
  | objectType (items : List AttrItem)
  | other
  deriving DecidableEq, Repr

/-- Modelled from the spec: a top-level `ast.ObjectItem` of the parser library;
`Keys` holds the token texts of the key tokens, `LeadComment` is `none` for a
nil pointer. -/
structure BlockItem where
  Keys : List String
  Val : BlockBody
  LeadComment : Option CommentGroup
  deriving DecidableEq, Repr

/-- Modelled from the spec: `ast.File` of the parser library; `Node` holds the
items of the top-level `*ast.ObjectList`, `Comments` all comment groups of the
file. -/
structure File where
  Node : List BlockItem
  Comments : List CommentGroup
  deriving DecidableEq, Repr

/-- Go `parseKeys`: the first key token text mapped to the trimmed texts of the
other key tokens; `none` stands for the panic of the read `rawKeys[0]`. -/
def parseKeys (rawKeys : List String) : Option (List (String × List String)) :=
  match rawKeys with
  | [] => none
  | key :: rest => some (mapSet [] key (rest.map trimStrings))

/-- Body of the loop of `extractValues` for one item: the `Value` appended for
it; `none` stands for a panic in `parseValues`, `parseKeys` or `parseComment`.
The error of `parseComment` is dropped, its `Comment` is kept. -/
def extractValuesStep (item : BlockItem) : Option Value :=
  match item.Val with
  | .objectType body =>
    match parseValues body with
    | none => none
    | some val =>
      match parseKeys item.Keys with
      | none => none
      | some key =>
        match parseComment item.LeadComment with
        | .panicked => none
        | .returned comment _ => some { Key := key, Val := val, Comment := comment }
  | .other => some { Key := [], Val := [], Comment := ⟨"", 0, 0⟩ }

/-- Loop of `extractValues`; `acc` is the slice `values` built so far. -/
def extractValuesLoop : List BlockItem → List Value → Option (List Value)
  | [], acc => some acc
  | item :: items, acc =>
    match extractValuesStep item with
    | none => none
    | some value => extractValuesLoop items (acc ++ [value])

/-- Go `extractValues` on the items of the top-level object list. -/
def extractValues (items : List BlockItem) : Option (List Value) :=
  extractValuesLoop items []

/-- Loop of `extractComments`; a comment group for which `parseComment` reports
an error is skipped (the source prints the error), `none` stands for a panic. -/
def extractCommentsLoop : List CommentGroup → List Comment → Option (List Comment)
  | [], acc => some acc
  | rawComment :: rawComments, acc =>
    match parseComment (some rawComment) with
    | .panicked => none
    | .returned _ (some _) => extractCommentsLoop rawComments acc
    | .returned comment none => extractCommentsLoop rawComments (acc ++ [comment])

/-- Go `extractComments`. -/
def extractComments (commentGroup : List CommentGroup) : Option (List Comment) :=
  extractCommentsLoop commentGroup []

/-- First loop of `Parse`: every text is parsed by the parser `hclParse`, the
first syntax error ends the loop; `trees` is the slice built so far. -/
def parseTexts (hclParse : String → Except String File) :
    List String → List File → Except String (List File)
  | [], trees => .ok trees
  | text :: texts, trees =>
    match hclParse text with
    | .error err => .error err
    | .ok tree => parseTexts hclParse texts (trees ++ [tree])

/-- The five slices that the second loop of `Parse` fills. -/
structure Collected where
  Comments : List Comment
  Variables : List Variable
  Outputs : List Output
  Modules : List Module
  Resources : List Resource
  deriving DecidableEq, Repr

/-- Second loop of `Parse` and its final assignments; `result` is the document
with its title set, `acc` the slices built so far.  An error of a classifier
is returned with `result` as it is. -/
def parseLoop (result : TFModule) (moduleName : String) :
    List File → Collected → Call (Option TFModule)
  | [], acc =>
    .returned
      (some { result with
        Variables := acc.Variables, Outputs := acc.Outputs,
        Description := extractDescription acc.Comments moduleName,
        Modules := acc.Modules, Resources := acc.Resources })
      none
  | hclTree :: hclTrees, acc =>
    match extractComments hclTree.Comments with
    | none => .panicked
    | some comments =>
      match extractValues hclTree.Node with
      | none => .panicked
      | some values =>
        match extractVariables values with
        | .panicked => .panicked
        | .returned _ (some err) => .returned (some result) (some err)
        | .returned tmpVariables none =>
          match extractOutputs values with
          | .panicked => .panicked
          | .returned _ (some err) => .returned (some result) (some err)
          | .returned tmpOutputs none =>
            match extractModules values with
            | .panicked => .panicked
            | .returned _ (some err) => .returned (some result) (some err)
            | .returned tmpModules none =>
              match extractResources values with
              | .panicked => .panicked
              | .returned _ (some err) => .returned (some result) (some err)
              | .returned tmpResources none =>
                parseLoop result moduleName hclTrees
                  { Comments := acc.Comments ++ comments,
                    Variables := acc.Variables ++ tmpVariables,
                    Outputs := acc.Outputs ++ tmpOutputs,
                    Modules := acc.Modules ++ tmpModules,
                    Resources := acc.Resources ++ tmpResources }

/-- Go `Parse`, with the parser `hcl.Parse` of the library as the parameter
`hclParse`; the document is `none` where the source returns the nil pointer. -/
def Parse (hclParse : String → Except String File) (hclText : List String)
    (moduleName : String) : Call (Option TFModule) :=
  let result : TFModule :=
    { Path := "", Title := "", Link := "", Variables := [], Outputs := [],
      Resources := [], Modules := [], Description := "" }
  if moduleName = "" then
    .returned (some result) (some "error moduleName cannot be empty")
  else
    let result := { result with Title := moduleName }
    match parseTexts hclParse hclText [] with
    | .error err => .returned none (some err)
    | .ok hclParseTrees => parseLoop result moduleName hclParseTrees ⟨[], [], [], [], []⟩

/-- What one file contributes when it is processed without error or panic: its
comments, and the records of the four classifiers on its extracted values. -/
def FileYields (hclTree : File) (r : Collected) : Prop :=
  extractComments hclTree.Comments = some r.Comments
    ∧ ∃ values, extractValues hclTree.Node = some values
      ∧ extractVariables values = .returned r.Variables none
      ∧ extractOutputs values = .returned r.Outputs none
      ∧ extractModules values = .returned r.Modules none
      ∧ extractResources values = .returned r.Resources none

/-! ## Sample inputs -/

/-- Two top-level items: an output block with one attribute and a leading
comment, and a top-level assignment, whose body is not an object. -/
def sampleBlocks : List BlockItem :=
  [⟨["output", "\"test\""], .objectType [⟨["value"], .literalType "\"testVal\""⟩],
      some ⟨[⟨⟨1, 1⟩, "// an output"⟩]⟩⟩,
   ⟨["region"], .other, none⟩]

/-- A file with a variable block under a file-level comment. -/
def sampleFileA : File :=
  { Node := [⟨["variable", "\"test\""],
        .objectType [⟨["type"], .literalType "\"string\""⟩], some ⟨[⟨⟨1, 1⟩, "// test"⟩]⟩⟩],
    Comments := [⟨[⟨⟨1, 1⟩, "// test"⟩]⟩] }

/-- A file with an output block and a module block without `source`. -/
def sampleFileB : File :=
  { Node := [⟨["output", "\"val\""],
        .objectType [⟨["description"], .literalType "\"output desc\""⟩], none⟩,
      ⟨["module", "\"m\""], .objectType [], none⟩],
    Comments := [] }

/-- A file with one output block. -/
def sampleFileC : File :=
  { Node := [⟨["output", "\"val\""],
        .objectType [⟨["description"], .literalType "\"output desc\""⟩], none⟩],
    Comments := [] }

/-- A parser that knows the texts "a", "b" and "c" and rejects every other
text. -/
def sampleParser (text : String) : Except String File :=
  if text = "a" then .ok sampleFileA
  else if text = "b" then .ok sampleFileB
  else if text = "c" then .ok sampleFileC
  else .error "syntax error"

/-! ## `extractElement` -/

theorem extractElement_foldl_acc (vs : List Value) (k : String) (acc : List Value) :
    vs.foldl (fun result value => if hasKey value.Key k then result ++ [value] else result) acc
      = acc ++ vs.filter (fun v => hasKey v.Key k) := by
  induction vs generalizing acc with
  | nil => simp
  | cons v vs ih =>
    simp only [List.foldl_cons, List.filter_cons]
    by_cases h : hasKey v.Key k = true
    · simp [h, ih]
    · simp [h, ih]

theorem extractElement_filter (vs : List Value) (k : String) :
    extractElement vs k = vs.filter (fun v => hasKey v.Key k) := by
  simp [extractElement, extractElement_foldl_acc]

/-- C2. `extractElement vs k` is exactly the subsequence of `vs` made of the
values whose `Key` map contains `k`: it is the order-preserving filter of `vs`
by key presence, hence a sublist of `vs` whose members are the unchanged
members of `vs` that have the key, and no value lacking the key appears. -/
theorem extractElement_exact_subsequence (vs : List Value) (k : String) :
    extractElement vs k = vs.filter (fun v => (v.Key.lookup k).isSome)
      ∧ List.Sublist (extractElement vs k) vs
      ∧ (∀ v, v ∈ extractElement vs k ↔ v ∈ vs ∧ (v.Key.lookup k).isSome = true)
      ∧ (∀ v, v.Key.lookup k = none → v ∉ extractElement vs k) := by
  have h := extractElement_filter vs k
  refine ⟨h, ?_, ?_, ?_⟩
  · rw [h]; exact List.filter_sublist vs
  · intro v; rw [h]; simp [List.mem_filter, hasKey]
  · intro v hv; rw [h]; simp [List.mem_filter, hasKey, hv]

/-! ## Lookups -/

theorem hasKey_iff_lookup {β : Type} (m : List (String × β)) (k : String) :
    hasKey m k = true ↔ ∃ x, m.lookup k = some x := by
  unfold hasKey
  cases m.lookup k <;> simp

theorem exists_first_part (v : Value) (k : String) (hk : hasKey v.Key k = true)
    (hname : ∀ parts, v.Key.lookup k = some parts → parts ≠ []) :
    ∃ n ns, v.Key.lookup k = some (n :: ns) := by
  obtain ⟨parts, hp⟩ := (hasKey_iff_lookup v.Key k).mp hk
  cases parts with
  | nil => exact absurd rfl (hname [] hp)
  | cons n ns => exact ⟨n, ns, hp⟩

theorem exists_two_parts (v : Value) (k : String) (hk : hasKey v.Key k = true)
    (hname : ∀ parts, v.Key.lookup k = some parts → 2 ≤ parts.length) :
    ∃ k0 k1 ks, v.Key.lookup k = some (k0 :: k1 :: ks) := by
  obtain ⟨parts, hp⟩ := (hasKey_iff_lookup v.Key k).mp hk
  have hlen := hname parts hp
  match parts, hp, hlen with
  | k0 :: k1 :: ks, hp, _ => exact ⟨k0, k1, ks, hp⟩

/-! ## `extractVariables` -/

theorem match_some_eq_getD (o : Option String) :
    (match o with
      | some d => d
      | none => "") = o.getD "" := by
  cases o <;> rfl

theorem extractVariablesLoop_cons_ok (v : Value) (vars : List Value) (acc : List Variable)
    (n : String) (ns : List String) (ty : String)
    (hk : v.Key.lookup "variable" = some (n :: ns)) (ht : v.Val.lookup "type" = some ty) :
    extractVariablesLoop (v :: vars) acc = extractVariablesLoop vars (acc ++ [variableOf v]) := by
  have hrec : variableOf v =
      { Name := n, «Type» := ty,
        Description := (match v.Val.lookup "description" with | some d => d | none => ""),
        Default := (match v.Val.lookup "default" with | some d => d | none => ""),
        Required := (if (match v.Val.lookup "default" with | some d => d | none => "") = ""
          then true else false) } := by
    simp only [match_some_eq_getD, variableOf, identifierParts, attributeOr, hk, ht]
    simp
  rw [hrec]
  simp only [extractVariablesLoop, hk, ht]

theorem extractVariablesLoop_ok (vars : List Value) (acc : List Variable)
    (hname : ∀ v ∈ vars, ∃ n ns, v.Key.lookup "variable" = some (n :: ns))
    (htype : ∀ v ∈ vars, ∃ ty, v.Val.lookup "type" = some ty) :
    extractVariablesLoop vars acc = .returned (acc ++ vars.map variableOf) none := by
  induction vars generalizing acc with
  | nil => simp [extractVariablesLoop]
  | cons v vars ih =>
    obtain ⟨n, ns, hk⟩ := hname v (List.mem_cons_self v vars)
    obtain ⟨ty, ht⟩ := htype v (List.mem_cons_self v vars)
    rw [extractVariablesLoop_cons_ok v vars acc n ns ty hk ht,
      ih _ (fun w hw => hname w (List.mem_cons_of_mem v hw))
        (fun w hw => htype w (List.mem_cons_of_mem v hw))]
    simp

theorem extractVariablesLoop_missing_type (pre post : List Value) (v : Value)
    (acc : List Variable)
    (hname : ∀ p ∈ pre, ∃ n ns, p.Key.lookup "variable" = some (n :: ns))
    (htype : ∀ p ∈ pre, ∃ ty, p.Val.lookup "type" = some ty)
    (hv : hasKey v.Key "variable" = true) (hvt : v.Val.lookup "type" = none) :
    extractVariablesLoop (pre ++ v :: post) acc
      = .returned (acc ++ pre.map variableOf) (some "type is required for a variable") := by
  induction pre generalizing acc with
  | nil =>
    obtain ⟨parts, hp⟩ := (hasKey_iff_lookup v.Key "variable").mp hv
    simp [extractVariablesLoop, hp, hvt]
  | cons p pre ih =>
    obtain ⟨n, ns, hk⟩ := hname p (List.mem_cons_self p pre)
    obtain ⟨ty, ht⟩ := htype p (List.mem_cons_self p pre)
    rw [List.cons_append, extractVariablesLoop_cons_ok p _ acc n ns ty hk ht,
      ih _ (fun w hw => hname w (List.mem_cons_of_mem p hw))
        (fun w hw => htype w (List.mem_cons_of_mem p hw))]
    simp

theorem extractVariablesLoop_invariant (P : Variable → Prop)
    (hP : ∀ v : Value, P (variableOf v))
    (vars : List Value) (acc items : List Variable) (err : Option String)
    (hacc : ∀ x ∈ acc, P x)
    (h : extractVariablesLoop vars acc = .returned items err) :
    ∀ x ∈ items, P x := by
  induction vars generalizing acc with
  | nil =>
    simp only [extractVariablesLoop, Outcome.returned.injEq] at h
    rw [← h.1]; exact hacc
  | cons v vars ih =>
    cases hk : v.Key.lookup "variable" with
    | none =>
      simp only [extractVariablesLoop, hk, Outcome.returned.injEq] at h
      rw [← h.1]; exact hacc
    | some name =>
      cases ht : v.Val.lookup "type" with
      | none =>
        simp only [extractVariablesLoop, hk, ht, Outcome.returned.injEq] at h
        rw [← h.1]; exact hacc
      | some ty =>
        cases name with
        | nil => simp [extractVariablesLoop, hk, ht] at h
        | cons n ns =>
          rw [extractVariablesLoop_cons_ok v vars acc n ns ty hk ht] at h
          refine ih (acc ++ [variableOf v]) ?_ h
          intro x hx
          rcases List.mem_append.mp hx with hx | hx
          · exact hacc x hx
          · rw [List.mem_singleton.mp hx]; exact hP v

/-- C1. Every `Variable` in the slice that `extractVariables` returns, with or
without an accompanying error, has `Required = true` exactly when its `Default`
is the empty string. -/
theorem extractVariables_required_iff_default_empty (values : List Value)
    (items : List Variable) (err : Option String)
    (h : extractVariables values = .returned items err) :
    ∀ x ∈ items, (x.Required = true ↔ x.Default = "") := by
  refine extractVariablesLoop_invariant (fun x => x.Required = true ↔ x.Default = "") ?_
    (extractElement values VARIABLE) [] items err ?_ h
  · intro v; simp [variableOf]
  · intro x hx; cases hx

theorem extractVariables_required_iff_default_empty_witness :
    extractVariables
        [⟨[("variable", ["a"])], [("type", "string")], ⟨"", 0, 0⟩⟩,
         ⟨[("variable", ["b"])], [("type", "list"), ("default", "[]")], ⟨"", 0, 0⟩⟩,
         ⟨[("variable", ["c"])], [], ⟨"", 0, 0⟩⟩]
      = .returned [⟨"a", "string", "", "", true⟩, ⟨"b", "list", "", "[]", false⟩]
          (some "type is required for a variable")
    ∧ ∀ x ∈ [(⟨"a", "string", "", "", true⟩ : Variable), ⟨"b", "list", "", "[]", false⟩],
        (x.Required = true ↔ x.Default = "") :=
  ⟨by decide,
    extractVariables_required_iff_default_empty
      [⟨[("variable", ["a"])], [("type", "string")], ⟨"", 0, 0⟩⟩,
       ⟨[("variable", ["b"])], [("type", "list"), ("default", "[]")], ⟨"", 0, 0⟩⟩,
       ⟨[("variable", ["c"])], [], ⟨"", 0, 0⟩⟩]
      [⟨"a", "string", "", "", true⟩, ⟨"b", "list", "", "[]", false⟩]
      (some "type is required for a variable") (by decide)⟩

/-- C3, as stated, fails: a valid variable followed by a variable without
`type` makes `extractVariables` return the error together with the record of
the earlier variable, not with zero records. -/
theorem extractVariables_keeps_earlier_records :
    (∃ v ∈ [(⟨[("variable", ["a"])], [("type", "string")], ⟨"", 0, 0⟩⟩ : Value),
            ⟨[("variable", ["b"])], [("description", "no type")], ⟨"", 0, 0⟩⟩],
        hasKey v.Key "variable" = true ∧ v.Val.lookup "type" = none)
    ∧ extractVariables
        [⟨[("variable", ["a"])], [("type", "string")], ⟨"", 0, 0⟩⟩,
         ⟨[("variable", ["b"])], [("description", "no type")], ⟨"", 0, 0⟩⟩]
      = .returned [⟨"a", "string", "", "", true⟩] (some "type is required for a variable")
    ∧ extractVariables
        [⟨[("variable", ["a"])], [("type", "string")], ⟨"", 0, 0⟩⟩,
         ⟨[("variable", ["b"])], [("description", "no type")], ⟨"", 0, 0⟩⟩]
      ≠ .returned [] (some "type is required for a variable") := by
  refine ⟨⟨⟨[("variable", ["b"])], [("description", "no type")], ⟨"", 0, 0⟩⟩, ?_, ?_, ?_⟩,
    ?_, ?_⟩ <;> decide

/-- C3, amended. When the value sequence is `pre ++ v :: post` with `v` a
variable-keyed value without `type`, and every variable-keyed value of `pre`
has at least one identifier part and a `type` attribute (so `v` is the first one
lacking `type`), `extractVariables` returns the error "type is required for a
variable" together with the records of the variable-keyed values of `pre`, in
order; these are zero records exactly when `pre` has no variable-keyed value. -/
theorem extractVariables_missing_type (pre post : List Value) (v : Value)
    (hname : ∀ p ∈ pre, ∀ parts, p.Key.lookup "variable" = some parts → parts ≠ [])
    (htype : ∀ p ∈ pre, hasKey p.Key "variable" = true → hasKey p.Val "type" = true)
    (hv : hasKey v.Key "variable" = true) (hvt : v.Val.lookup "type" = none) :
    extractVariables (pre ++ v :: post)
      = .returned ((pre.filter (fun p => hasKey p.Key "variable")).map variableOf)
          (some "type is required for a variable") := by
  have hsplit : extractElement (pre ++ v :: post) VARIABLE
      = pre.filter (fun p => hasKey p.Key "variable")
        ++ v :: post.filter (fun p => hasKey p.Key "variable") := by
    rw [extractElement_filter]
    simp [VARIABLE, List.filter_cons, hv]
  unfold extractVariables
  rw [hsplit, extractVariablesLoop_missing_type _ _ v [] ?_ ?_ hv hvt]
  · simp
  · intro p hp
    obtain ⟨hmem, hkey⟩ := List.mem_filter.mp hp
    exact exists_first_part p "variable" (by simpa using hkey) (hname p hmem)
  · intro p hp
    obtain ⟨hmem, hkey⟩ := List.mem_filter.mp hp
    exact (hasKey_iff_lookup p.Val "type").mp (htype p hmem (by simpa using hkey))

theorem extractVariables_missing_type_witness :
    extractVariables
        ([⟨[("variable", ["a"])], [("type", "string")], ⟨"", 0, 0⟩⟩,
          ⟨[("output", ["o"])], [], ⟨"", 0, 0⟩⟩]
          ++ ⟨[("variable", ["b"])], [("description", "no type")], ⟨"", 0, 0⟩⟩
          :: [⟨[("variable", ["c"])], [("type", "string")], ⟨"", 0, 0⟩⟩])
      = .returned
          (([(⟨[("variable", ["a"])], [("type", "string")], ⟨"", 0, 0⟩⟩ : Value),
             ⟨[("output", ["o"])], [], ⟨"", 0, 0⟩⟩].filter
              (fun p => hasKey p.Key "variable")).map variableOf)
          (some "type is required for a variable") :=
  extractVariables_missing_type
    [⟨[("variable", ["a"])], [("type", "string")], ⟨"", 0, 0⟩⟩,
     ⟨[("output", ["o"])], [], ⟨"", 0, 0⟩⟩]
    [⟨[("variable", ["c"])], [("type", "string")], ⟨"", 0, 0⟩⟩]
    ⟨[("variable", ["b"])], [("description", "no type")], ⟨"", 0, 0⟩⟩
    (by decide) (by decide) (by decide) (by decide)

/-- C4. When every variable-keyed value has at least one identifier part and a
`type` attribute, `extractVariables` returns without error exactly one record
per variable-keyed value, in the original order, the record of each value being
`variableOf` of it: name = first identifier part, type = `type` attribute,
description and default = the attributes when present and "" otherwise. -/
theorem extractVariables_ok (values : List Value)
    (hname : ∀ v ∈ values, ∀ parts, v.Key.lookup "variable" = some parts → parts ≠ [])
    (htype : ∀ v ∈ values, hasKey v.Key "variable" = true → hasKey v.Val "type" = true) :
    extractVariables values
      = .returned ((values.filter (fun v => hasKey v.Key "variable")).map variableOf) none := by
  unfold extractVariables
  rw [extractElement_filter, extractVariablesLoop_ok _ [] ?_ ?_]
  · simp [VARIABLE]
  · intro p hp
    obtain ⟨hmem, hkey⟩ := List.mem_filter.mp hp
    exact exists_first_part p "variable" (by simpa [VARIABLE] using hkey) (hname p hmem)
  · intro p hp
    obtain ⟨hmem, hkey⟩ := List.mem_filter.mp hp
    exact (hasKey_iff_lookup p.Val "type").mp
      (htype p hmem (by simpa [VARIABLE] using hkey))

theorem extractVariables_ok_witness :
    extractVariables
        [⟨[("variable", ["bah_humbug"])], [("type", "string")], ⟨"", 0, 0⟩⟩,
         ⟨[("variable", ["testing"])],
          [("type", "string"), ("description", "a variable"), ("default", "yes")], ⟨"", 0, 0⟩⟩,
         ⟨[("output", ["testing"])], [("type", "string"), ("value", "yes")], ⟨"", 0, 0⟩⟩]
      = .returned [⟨"bah_humbug", "string", "", "", true⟩,
                   ⟨"testing", "string", "a variable", "yes", false⟩] none :=
  (extractVariables_ok
    [⟨[("variable", ["bah_humbug"])], [("type", "string")], ⟨"", 0, 0⟩⟩,
     ⟨[("variable", ["testing"])],
      [("type", "string"), ("description", "a variable"), ("default", "yes")], ⟨"", 0, 0⟩⟩,
     ⟨[("output", ["testing"])], [("type", "string"), ("value", "yes")], ⟨"", 0, 0⟩⟩]
    (by decide) (by decide)).trans (by decide)

/-- C5 fails on the code. A variable block without a name (keyword present,
zero identifier parts) never yields "name is required for a variable": with a
`type` attribute the read of `name[0]` panics, and without one the call returns
"type is required for a variable". -/
theorem extractVariables_nameless_no_name_error :
    extractVariables [⟨[("variable", [])], [("type", "string")], ⟨"", 0, 0⟩⟩] = .panicked
    ∧ extractVariables [⟨[("variable", [])], [], ⟨"", 0, 0⟩⟩]
      = .returned [] (some "type is required for a variable") := by
  constructor <;> decide

/-! ## `extractResources` -/

theorem extractResourcesLoop_cons_ok (m : Value) (mods : List Value) (acc : List Resource)
    (k0 k1 : String) (ks : List String)
    (hk : m.Key.lookup "resource" = some (k0 :: k1 :: ks)) :
    extractResourcesLoop (m :: mods) acc = extractResourcesLoop mods (acc ++ [resourceOf m]) := by
  have hrec : resourceOf m = { «Type» := k0, Name := k1, Description := m.Comment.Text } := by
    simp [resourceOf, identifierParts, hk]
  rw [hrec]
  simp only [extractResourcesLoop, hk]

theorem extractResourcesLoop_ok (mods : List Value) (acc : List Resource)
    (hname : ∀ m ∈ mods, ∃ k0 k1 ks, m.Key.lookup "resource" = some (k0 :: k1 :: ks)) :
    extractResourcesLoop mods acc = .returned (acc ++ mods.map resourceOf) none := by
  induction mods generalizing acc with
  | nil => simp [extractResourcesLoop]
  | cons m mods ih =>
    obtain ⟨k0, k1, ks, hk⟩ := hname m (List.mem_cons_self m mods)
    rw [extractResourcesLoop_cons_ok m mods acc k0 k1 ks hk,
      ih _ (fun w hw => hname w (List.mem_cons_of_mem m hw))]
    simp

/-- C6 fails on the code. A resource block with fewer than two identifier parts
never yields "name is required for a resource": the read of `keys[1]` panics,
with one identifier part as with none. -/
theorem extractResources_short_identifier_panics :
    extractResources [⟨[("resource", ["aws_instance"])], [], ⟨"", 0, 0⟩⟩] = .panicked
    ∧ extractResources [⟨[("resource", [])], [], ⟨"", 0, 0⟩⟩] = .panicked := by
  constructor <;> decide

/-- C9. When every resource-keyed value has at least two identifier parts,
`extractResources` returns without error one record per resource-keyed value,
in the original order, with type = first identifier part, name = second
identifier part and description = the text of the value's comment. -/
theorem extractResources_ok (values : List Value)
    (hname : ∀ v ∈ values, ∀ parts, v.Key.lookup "resource" = some parts → 2 ≤ parts.length) :
    extractResources values
      = .returned ((values.filter (fun v => hasKey v.Key "resource")).map resourceOf) none := by
  unfold extractResources
  rw [extractElement_filter, extractResourcesLoop_ok _ [] ?_]
  · simp [RESOURCE]
  · intro p hp
    obtain ⟨hmem, hkey⟩ := List.mem_filter.mp hp
    exact exists_two_parts p "resource" (by simpa [RESOURCE] using hkey) (hname p hmem)

theorem extractResources_ok_witness :
    extractResources
        [⟨[("resource", ["type", "name"])], [], ⟨"Describe me a resource", 0, 0⟩⟩,
         ⟨[("output", ["o"])], [], ⟨"", 0, 0⟩⟩,
         ⟨[("resource", ["aws_instance", "web", "extra"])], [("ami", "x")], ⟨"", 3, 7⟩⟩]
      = .returned [⟨"type", "name", "Describe me a resource"⟩,
                   ⟨"aws_instance", "web", ""⟩] none :=
  (extractResources_ok
    [⟨[("resource", ["type", "name"])], [], ⟨"Describe me a resource", 0, 0⟩⟩,
     ⟨[("output", ["o"])], [], ⟨"", 0, 0⟩⟩,
     ⟨[("resource", ["aws_instance", "web", "extra"])], [("ami", "x")], ⟨"", 3, 7⟩⟩]
    (by decide)).trans (by decide)

/-! ## `extractOutputs` -/

theorem extractOutputsLoop_cons_ok (o : Value) (outs : List Value) (acc : List Output)
    (n : String) (ns : List String) (hk : o.Key.lookup "output" = some (n :: ns)) :
    extractOutputsLoop (o :: outs) acc = extractOutputsLoop outs (acc ++ [outputOf o]) := by
  have hrec : outputOf o =
      { Description := (match o.Val.lookup "description" with | some d => d | none => ""),
        Name := n } := by
    simp [match_some_eq_getD, outputOf, identifierParts, attributeOr, hk]
  rw [hrec]
  simp only [extractOutputsLoop, hk]

theorem extractOutputsLoop_ok (outs : List Value) (acc : List Output)
    (hname : ∀ o ∈ outs, ∃ n ns, o.Key.lookup "output" = some (n :: ns)) :
    extractOutputsLoop outs acc = .returned (acc ++ outs.map outputOf) none := by
  induction outs generalizing acc with
  | nil => simp [extractOutputsLoop]
  | cons o outs ih =>
    obtain ⟨n, ns, hk⟩ := hname o (List.mem_cons_self o outs)
    rw [extractOutputsLoop_cons_ok o outs acc n ns hk,
      ih _ (fun w hw => hname w (List.mem_cons_of_mem o hw))]
    simp

/-- C8. When every output-keyed value has at least one identifier part,
`extractOutputs` returns without error exactly one record per output-keyed
value, in the original order and skipping values of other keywords, with name =
first identifier part and description = the `description` attribute when present
and "" otherwise; the comment of the value plays no part. -/
theorem extractOutputs_ok (values : List Value)
    (hname : ∀ v ∈ values, ∀ parts, v.Key.lookup "output" = some parts → parts ≠ []) :
    extractOutputs values
        = .returned ((values.filter (fun v => hasKey v.Key "output")).map outputOf) none
      ∧ ∀ (v : Value) (c : Comment), outputOf { v with Comment := c } = outputOf v := by
  refine ⟨?_, fun v c => rfl⟩
  unfold extractOutputs
  rw [extractElement_filter, extractOutputsLoop_ok _ [] ?_]
  · simp [OUTPUT]
  · intro p hp
    obtain ⟨hmem, hkey⟩ := List.mem_filter.mp hp
    exact exists_first_part p "output" (by simpa [OUTPUT] using hkey) (hname p hmem)

theorem extractOutputs_ok_witness :
    extractOutputs
        [⟨[("output", ["hello"])], [("description", "An output shows things")], ⟨"lead", 0, 0⟩⟩,
         ⟨[("variable", ["hello"])], [], ⟨"", 0, 0⟩⟩,
         ⟨[("output", ["world"])], [("value", "1")], ⟨"another lead", 0, 0⟩⟩]
      = .returned [⟨"An output shows things", "hello"⟩, ⟨"", "world"⟩] none :=
  (extractOutputs_ok
    [⟨[("output", ["hello"])], [("description", "An output shows things")], ⟨"lead", 0, 0⟩⟩,
     ⟨[("variable", ["hello"])], [], ⟨"", 0, 0⟩⟩,
     ⟨[("output", ["world"])], [("value", "1")], ⟨"another lead", 0, 0⟩⟩]
    (by decide)).1.trans (by decide)

/-! ## `extractModules` -/

theorem extractModulesLoop_cons_ok (m : Value) (mods : List Value) (acc : List Module)
    (n : String) (ns : List String) (src : String)
    (hk : m.Key.lookup "module" = some (n :: ns)) (hs : m.Val.lookup "source" = some src) :
    extractModulesLoop (m :: mods) acc = extractModulesLoop mods (acc ++ [moduleOf m]) := by
  have hrec : moduleOf m = { Name := n, Description := m.Comment.Text, Source := src } := by
    simp [moduleOf, identifierParts, attributeOr, hk, hs]
  rw [hrec]
  simp only [extractModulesLoop, hk, hs]

theorem extractModulesLoop_ok (mods : List Value) (acc : List Module)
    (hname : ∀ m ∈ mods, ∃ n ns, m.Key.lookup "module" = some (n :: ns))
    (hsrc : ∀ m ∈ mods, ∃ src, m.Val.lookup "source" = some src) :
    extractModulesLoop mods acc = .returned (acc ++ mods.map moduleOf) none := by
  induction mods generalizing acc with
  | nil => simp [extractModulesLoop]
  | cons m mods ih =>
    obtain ⟨n, ns, hk⟩ := hname m (List.mem_cons_self m mods)
    obtain ⟨src, hs⟩ := hsrc m (List.mem_cons_self m mods)
    rw [extractModulesLoop_cons_ok m mods acc n ns src hk hs,
      ih _ (fun w hw => hname w (List.mem_cons_of_mem m hw))
        (fun w hw => hsrc w (List.mem_cons_of_mem m hw))]
    simp

theorem extractModulesLoop_cases (mods : List Value) (acc : List Module)
    (hname : ∀ m ∈ mods, ∃ n ns, m.Key.lookup "module" = some (n :: ns)) :
    ∃ items err, extractModulesLoop mods acc = .returned items err
      ∧ ((err = none ∧ ∀ m ∈ mods, ∃ src, m.Val.lookup "source" = some src)
        ∨ (err = some "source is required for a variable"
            ∧ ∃ m ∈ mods, m.Val.lookup "source" = none)) := by
  induction mods generalizing acc with
  | nil => exact ⟨acc, none, by simp [extractModulesLoop]⟩
  | cons m mods ih =>
    obtain ⟨n, ns, hk⟩ := hname m (List.mem_cons_self m mods)
    cases hs : m.Val.lookup "source" with
    | none =>
      refine ⟨acc, some "source is required for a variable", ?_, Or.inr ⟨rfl, m, ?_, hs⟩⟩
      · simp [extractModulesLoop, hk, hs]
      · exact List.mem_cons_self m mods
    | some src =>
      obtain ⟨items, err, hrun, hcase⟩ :=
        ih (acc ++ [moduleOf m]) (fun w hw => hname w (List.mem_cons_of_mem m hw))
      refine ⟨items, err, ?_, ?_⟩
      · rw [extractModulesLoop_cons_ok m mods acc n ns src hk hs]; exact hrun
      · rcases hcase with ⟨he, hall⟩ | ⟨he, w, hw, hwsrc⟩
        · refine Or.inl ⟨he, ?_⟩
          intro w hw
          rcases List.mem_cons.mp hw with rfl | hw
          · exact ⟨src, hs⟩
          · exact hall w hw
        · exact Or.inr ⟨he, w, List.mem_cons_of_mem m hw, hwsrc⟩

/-- C7. When every module-keyed value has at least one identifier part,
`extractModules` returns, and it returns an error if and only if some
module-keyed value has no `source` attribute; the message of that error is
exactly "source is required for a variable". -/
theorem extractModules_error_iff_missing_source (values : List Value)
    (hname : ∀ v ∈ values, ∀ parts, v.Key.lookup "module" = some parts → parts ≠ []) :
    ∃ items err, extractModules values = .returned items err
      ∧ (err.isSome = true
          ↔ ∃ v ∈ values, hasKey v.Key "module" = true ∧ v.Val.lookup "source" = none)
      ∧ (∀ e, err = some e → e = "source is required for a variable") := by
  have hmods : ∀ m ∈ extractElement values MODULE,
      ∃ n ns, m.Key.lookup "module" = some (n :: ns) := by
    intro p hp
    rw [extractElement_filter] at hp
    obtain ⟨hmem, hkey⟩ := List.mem_filter.mp hp
    exact exists_first_part p "module" (by simpa [ MODULE] using hkey) (hname p hmem)
  obtain ⟨items, err, hrun, hcase⟩ := extractModulesLoop_cases _ [] hmods
  refine ⟨items, err, hrun, ?_, ?_⟩
  · rcases hcase with ⟨he, hall⟩ | ⟨he, w, hw, hwsrc⟩
    · subst he
      constructor
      · intro h; cases h
      · rintro ⟨v, hv, hkey, hsrc⟩
        have hmem : v ∈ extractElement values MODULE := by
          rw [extractElement_filter]
          exact List.mem_filter.mpr ⟨hv, by simpa [ MODULE] using hkey⟩
        obtain ⟨src, hs⟩ := hall v hmem
        rw [hsrc] at hs; cases hs
    · subst he
      constructor
      · intro _
        rw [extractElement_filter] at hw
        obtain ⟨hmem, hkey⟩ := List.mem_filter.mp hw
        exact ⟨w, hmem, by simpa [ MODULE] using hkey, hwsrc⟩
      · intro _; rfl
  · intro e he
    rcases hcase with ⟨hn, _⟩ | ⟨hsome, _⟩
    · rw [hn] at he; cases he
    · rw [hsome] at he; exact (Option.some.inj he).symm

theorem extractModules_error_iff_missing_source_witness :
    ∃ items err,
      extractModules
          [⟨[("module", ["vpc"])], [("source", "../vpc")], ⟨"a vpc", 0, 0⟩⟩,
           ⟨[("module", ["db"])], [("version", "1")], ⟨"", 0, 0⟩⟩] = .returned items err
      ∧ (err.isSome = true
          ↔ ∃ v ∈ [(⟨[("module", ["vpc"])], [("source", "../vpc")], ⟨"a vpc", 0, 0⟩⟩ : Value),
                   ⟨[("module", ["db"])], [("version", "1")], ⟨"", 0, 0⟩⟩],
              hasKey v.Key "module" = true ∧ v.Val.lookup "source" = none)
      ∧ (∀ e, err = some e → e = "source is required for a variable") :=
  extractModules_error_iff_missing_source
    [⟨[("module", ["vpc"])], [("source", "../vpc")], ⟨"a vpc", 0, 0⟩⟩,
     ⟨[("module", ["db"])], [("version", "1")], ⟨"", 0, 0⟩⟩]
    (by decide)

/-- C10. When every module-keyed value has at least one identifier part and a
`source` attribute, `extractModules` returns without error one record per
module-keyed value, in the original order, with name = first identifier part,
source = the `source` attribute and description = the text of the value's
comment. -/
theorem extractModules_ok (values : List Value)
    (hname : ∀ v ∈ values, ∀ parts, v.Key.lookup "module" = some parts → parts ≠ [])
    (hsrc : ∀ v ∈ values, hasKey v.Key "module" = true → hasKey v.Val "source" = true) :
    extractModules values
      = .returned ((values.filter (fun v => hasKey v.Key "module")).map moduleOf) none := by
  unfold extractModules
  rw [extractElement_filter, extractModulesLoop_ok _ [] ?_ ?_]
  · simp [ MODULE]
  · intro p hp
    obtain ⟨hmem, hkey⟩ := List.mem_filter.mp hp
    exact exists_first_part p "module" (by simpa [ MODULE] using hkey) (hname p hmem)
  · intro p hp
    obtain ⟨hmem, hkey⟩ := List.mem_filter.mp hp
    exact (hasKey_iff_lookup p.Val "source").mp
      (hsrc p hmem (by simpa [ MODULE] using hkey))

theorem extractModules_ok_witness :
    extractModules
        [⟨[("module", ["name"])], [("source", "../../module")], ⟨"describe a module", 0, 0⟩⟩,
         ⟨[("resource", ["t", "n"])], [], ⟨"", 0, 0⟩⟩,
         ⟨[("module", ["other", "x"])], [("source", "git::x"), ("v", "1")], ⟨"", 4, 1⟩⟩]
      = .returned [⟨"name", "describe a module", "../../module"⟩,
                   ⟨"other", "", "git::x"⟩] none :=
  (extractModules_ok
    [⟨[("module", ["name"])], [("source", "../../module")], ⟨"describe a module", 0, 0⟩⟩,
     ⟨[("resource", ["t", "n"])], [], ⟨"", 0, 0⟩⟩,
     ⟨[("module", ["other", "x"])], [("source", "git::x"), ("v", "1")], ⟨"", 4, 1⟩⟩]
    (by decide) (by decide)).trans (by decide)

/-! ## String primitives -/

theorem hasPrefix_append (p t : String) : hasPrefix (p ++ t) p = true := by
  simp [hasPrefix]

theorem hasSuffix_append (t p : String) : hasSuffix (t ++ p) p = true := by
  simp [hasSuffix]

theorem trimPrefix_append (p t : String) : trimPrefix (p ++ t) p = t := by
  simp [trimPrefix, hasPrefix_append]

theorem trimSuffix_append (t p : String) : trimSuffix (t ++ p) p = t := by
  simp [trimSuffix, hasSuffix_append]

theorem trimPrefix_of_not_hasPrefix (s p : String) (h : hasPrefix s p = false) :
    trimPrefix s p = s := by
  simp [trimPrefix, h]

theorem trimSuffix_of_not_hasSuffix (s p : String) (h : hasSuffix s p = false) :
    trimSuffix s p = s := by
  simp [trimSuffix, h]

theorem hasPrefix_false_of_not_mem (s p : String) (c : Char) (hp : c ∈ p.data)
    (hs : c ∉ s.data) : hasPrefix s p = false := by
  cases h : hasPrefix s p with
  | false => rfl
  | true =>
    have hpre : p.data <+: s.data := by simpa [hasPrefix] using h
    exact absurd (hpre.subset hp) hs

theorem hasSuffix_false_of_not_mem (s p : String) (c : Char) (hp : c ∈ p.data)
    (hs : c ∉ s.data) : hasSuffix s p = false := by
  cases h : hasSuffix s p with
  | false => rfl
  | true =>
    have hsuf : p.data <:+ s.data := by simpa [hasSuffix] using h
    exact absurd (hsuf.subset hp) hs

theorem trimStrings_eq (s : String) :
    trimStrings s
      = trimSuffix (trimPrefix (trimSuffix (trimPrefix s "\\\"") "\\\"") "\"") "\"" := by
  simp [trimStrings]

/-! ## `trimStrings` -/

/-- C13. For a string `x` without double quote and without backslash,
`trimStrings` gives `x` back from `x` wrapped in plain quotes, from `x` wrapped
in escaped quotes, and from `x` itself. -/
theorem trimStrings_unwraps (x : String) (hq : '"' ∉ x.data) (hb : '\\' ∉ x.data) :
    trimStrings ("\"" ++ x ++ "\"") = x
      ∧ trimStrings ("\\\"" ++ x ++ "\\\"") = x
      ∧ trimStrings x = x := by
  have hx : trimStrings x = x := by
    rw [trimStrings_eq,
      trimPrefix_of_not_hasPrefix x _ (hasPrefix_false_of_not_mem x _ '"' (by decide) hq),
      trimSuffix_of_not_hasSuffix x _ (hasSuffix_false_of_not_mem x _ '"' (by decide) hq),
      trimPrefix_of_not_hasPrefix x _ (hasPrefix_false_of_not_mem x _ '"' (by decide) hq),
      trimSuffix_of_not_hasSuffix x _ (hasSuffix_false_of_not_mem x _ '"' (by decide) hq)]
  refine ⟨?_, ?_, hx⟩
  · have hno : '\\' ∉ ("\"" ++ x ++ "\"").data := by
      simp only [String.data_append, List.mem_append, not_or]
      exact ⟨⟨by decide, hb⟩, by decide⟩
    rw [trimStrings_eq,
      trimPrefix_of_not_hasPrefix _ _ (hasPrefix_false_of_not_mem _ _ '\\' (by decide) hno),
      trimSuffix_of_not_hasSuffix _ _ (hasSuffix_false_of_not_mem _ _ '\\' (by decide) hno),
      String.append_assoc, trimPrefix_append, trimSuffix_append]
  · have hstep : trimSuffix (trimPrefix ("\\\"" ++ x ++ "\\\"") "\\\"") "\\\"" = x := by
      rw [String.append_assoc, trimPrefix_append, trimSuffix_append]
    have h := hx
    rw [trimStrings_eq] at h ⊢
    rw [hstep,
      trimPrefix_of_not_hasPrefix x _ (hasPrefix_false_of_not_mem x _ '"' (by decide) hq),
      trimSuffix_of_not_hasSuffix x _ (hasSuffix_false_of_not_mem x _ '"' (by decide) hq)]

theorem trimStrings_unwraps_witness :
    trimStrings ("\"" ++ "hello" ++ "\"") = "hello"
      ∧ trimStrings ("\\\"" ++ "hello" ++ "\\\"") = "hello"
      ∧ trimStrings "hello" = "hello" :=
  trimStrings_unwraps "hello" (by decide) (by decide)

theorem hasPrefix_iff_append (s p : String) :
    hasPrefix s p = true ↔ ∃ t : String, s = p ++ t := by
  constructor
  · intro h
    have hpre : p.data <+: s.data := by simpa [hasPrefix] using h
    obtain ⟨t, ht⟩ := hpre
    exact ⟨⟨t⟩, String.ext (by simp [ht])⟩
  · rintro ⟨t, rfl⟩
    exact hasPrefix_append p t

theorem mem_takeWhile_isSpace (l : List Char) :
    ∀ c ∈ l.takeWhile isSpace, isSpace c = true := by
  induction l with
  | nil => intro c hc; cases hc
  | cons a l ih =>
    intro c hc
    by_cases ha : isSpace a = true
    · rw [List.takeWhile_cons_of_pos ha] at hc
      rcases List.mem_cons.mp hc with rfl | hc
      · exact ha
      · exact ih c hc
    · rw [List.takeWhile_cons_of_neg ha] at hc
      cases hc

theorem trimSpace_decompose (t : String) :
    ∃ a b : String, t = a ++ trimSpace t ++ b
      ∧ (∀ c ∈ a.data, isSpace c = true) ∧ (∀ c ∈ b.data, isSpace c = true) := by
  refine ⟨⟨t.data.takeWhile isSpace⟩,
    ⟨((t.data.dropWhile isSpace).reverse.takeWhile isSpace).reverse⟩, ?_, ?_, ?_⟩
  · apply String.ext
    simp only [String.data_append, trimSpace, List.append_assoc]
    rw [← List.reverse_append, List.takeWhile_append_dropWhile, List.reverse_reverse,
      List.takeWhile_append_dropWhile]
  · exact mem_takeWhile_isSpace _
  · intro c hc
    exact mem_takeWhile_isSpace _ c (List.mem_reverse.mp hc)

/-! ## `tidyComment` -/

theorem tidyComment_line (t : String) : tidyComment ("//" ++ t) = trimSpace t := by
  have h1 : hasPrefix ("//" ++ t) "//" = true := hasPrefix_append _ _
  have h2 : hasPrefix ("//" ++ t) "/*" = false := by
    have hd : "/*".data = ['/', '*'] := rfl
    have hs : ("//" ++ t).data = '/' :: '/' :: t.data := rfl
    simp [hasPrefix, hd, hs, List.isPrefixOf]
  simp [tidyComment, h1, h2, trimPrefix_append]

theorem tidyComment_block_open (r : String) :
    tidyComment ("/*" ++ r) = trimSpace (trimSuffix r "*/") := by
  have h1 : hasPrefix ("/*" ++ r) "/*" = true := hasPrefix_append _ _
  have h2 : hasPrefix ("/*" ++ r) "//" = false := by
    have hd : "//".data = ['/', '/'] := rfl
    have hs : ("/*" ++ r).data = '/' :: '*' :: r.data := rfl
    simp [hasPrefix, hd, hs, List.isPrefixOf]
  simp [tidyComment, h1, h2, trimPrefix_append]

/-- C18. `tidyComment s` is the white-space trim of `s` without its leading
"//" when `s` starts with "//", of `s` without its leading "/*" and then
without the trailing "*/" of what remains when `s` starts with "/*", and of `s`
itself otherwise.  In particular `tidyComment ("//" ++ t) = trimSpace t` and
`tidyComment ("/*" ++ t ++ "*/") = trimSpace t`; the trim only removes white
space around its argument, which keeps the interior of `t` as it is. -/
theorem tidyComment_spec :
    (∀ s, tidyComment s
        = trimSpace (if hasPrefix s "//" then trimPrefix s "//"
            else if hasPrefix s "/*" then trimSuffix (trimPrefix s "/*") "*/" else s))
      ∧ (∀ t, tidyComment ("//" ++ t) = trimSpace t)
      ∧ (∀ t, tidyComment ("/*" ++ t ++ "*/") = trimSpace t)
      ∧ (∀ t, ∃ a b : String, t = a ++ trimSpace t ++ b
          ∧ (∀ c ∈ a.data, isSpace c = true) ∧ (∀ c ∈ b.data, isSpace c = true)) := by
  refine ⟨?_, tidyComment_line, ?_, trimSpace_decompose⟩
  · intro s
    cases h1 : hasPrefix s "//" with
    | true =>
      obtain ⟨t, rfl⟩ := (hasPrefix_iff_append s "//").mp h1
      simp [tidyComment_line, trimPrefix_append]
    | false =>
      cases h2 : hasPrefix s "/*" with
      | true =>
        obtain ⟨r, rfl⟩ := (hasPrefix_iff_append s "/*").mp h2
        simp [tidyComment_block_open, trimPrefix_append]
      | false => simp [tidyComment, h1, h2]
  · intro t
    rw [String.append_assoc, tidyComment_block_open, trimSuffix_append]

/-! ## `extractDescription` -/

theorem extractDescription_eq_find (comments : List Comment) (title : String) :
    extractDescription comments title
      = match comments.find?
            (fun c => decide (c.Line = 1) && hasPrefix (trimSpace c.Text) title) with
        | some c => trimSpace c.Text
        | none => "" := by
  induction comments with
  | nil => rfl
  | cons c cs ih =>
    by_cases hl : c.Line = 1
    · cases hp : hasPrefix (trimSpace c.Text) title with
      | true => simp [extractDescription, List.find?_cons, hl, hp]
      | false => simp [extractDescription, List.find?_cons, hl, hp, ih]
    · simp [extractDescription, List.find?_cons, hl, ih]

theorem extractDescription_filter_line (comments : List Comment) (title : String) :
    extractDescription (comments.filter (fun c => decide (c.Line = 1))) title
      = extractDescription comments title := by
  induction comments with
  | nil => rfl
  | cons c cs ih =>
    by_cases hl : c.Line = 1
    · cases hp : hasPrefix (trimSpace c.Text) title with
      | true => simp [extractDescription, List.filter_cons, hl, hp]
      | false => simp [extractDescription, List.filter_cons, hl, hp, ih]
    · simp [extractDescription, List.filter_cons, hl, ih]

/-- C14. `extractDescription` returns the white-space-trimmed text of the first
comment of the list whose `Line` is 1 and whose trimmed text starts with the
title, and the empty string when no comment meets both conditions; the result
is that of the list with every comment whose `Line` is not 1 removed. -/
theorem extractDescription_first_match (comments : List Comment) (title : String) :
    extractDescription comments title
        = (match comments.find?
              (fun c => decide (c.Line = 1) && hasPrefix (trimSpace c.Text) title) with
          | some c => trimSpace c.Text
          | none => "")
      ∧ ((∀ c ∈ comments, ¬ (c.Line = 1 ∧ hasPrefix (trimSpace c.Text) title = true))
          → extractDescription comments title = "")
      ∧ extractDescription comments title
          = extractDescription (comments.filter (fun c => decide (c.Line = 1))) title := by
  refine ⟨extractDescription_eq_find comments title, ?_,
    (extractDescription_filter_line comments title).symm⟩
  intro hnone
  rw [extractDescription_eq_find]
  have hfind : comments.find?
      (fun c => decide (c.Line = 1) && hasPrefix (trimSpace c.Text) title) = none := by
    rw [List.find?_eq_none]
    intro c hc
    have := hnone c hc
    simpa using this
  rw [hfind]

/-! ## `parseComment` -/

/-- C19. For a comment group with entries `c :: cs`, `parseComment` returns
without error a `Comment` whose `Text` is the `tidyComment` of the entries, in
entry order, joined by one space (its position is that of the first entry). -/
theorem parseComment_joins_entries (c : AstComment) (cs : List AstComment) :
    parseComment (some ⟨c :: cs⟩)
        = .returned ⟨join ((c :: cs).map (fun e => tidyComment e.Text)) " ",
            c.Start.Column, c.Start.Line⟩ none
      ∧ (∀ a : String, join [a] " " = a)
      ∧ (∀ (a b : String) (rest : List String),
          join (a :: b :: rest) " " = a ++ " " ++ join (b :: rest) " ") := by
  refine ⟨rfl, fun a => rfl, fun a b rest => rfl⟩

/-- C20, as stated, fails: on a comment group that is present but has no
entries `parseComment` returns no error; the read of the group's position
panics. -/
theorem parseComment_empty_group_no_error :
    parseComment (some ⟨[]⟩) = .panicked
      ∧ ∀ (c : Comment) (e : String), parseComment (some ⟨[]⟩) ≠ .returned c (some e) := by
  refine ⟨rfl, ?_⟩
  intro c e h
  cases h

/-- C20, amended. `parseComment` returns an error, together with the zero
`Comment`, when the comment group is absent (nil), and only then: on a group
that is present, with or without entries, it never returns an error. -/
theorem parseComment_error_iff_nil :
    parseComment none = .returned ⟨"", 0, 0⟩ (some "comment is nil")
      ∧ ∀ (g : CommentGroup) (c : Comment) (e : String),
          parseComment (some g) ≠ .returned c (some e) := by
  refine ⟨rfl, ?_⟩
  intro g c e h
  unfold parseComment at h
  cases hp : commentGroupPos g with
  | none => simp [hp] at h
  | some pos => simp [hp] at h

/-! ## Records returned by `extractModules` -/

theorem extractModulesLoop_invariant (Q : Module → Prop)
    (mods : List Value) (acc items : List Module) (err : Option String)
    (hstep : ∀ m ∈ mods, ∀ n ns src, m.Key.lookup "module" = some (n :: ns) →
      m.Val.lookup "source" = some src → Q (moduleOf m))
    (hacc : ∀ x ∈ acc, Q x)
    (h : extractModulesLoop mods acc = .returned items err) :
    ∀ x ∈ items, Q x := by
  induction mods generalizing acc with
  | nil =>
    simp only [extractModulesLoop, Outcome.returned.injEq] at h
    rw [← h.1]; exact hacc
  | cons m mods ih =>
    cases hk : m.Key.lookup "module" with
    | none =>
      simp only [extractModulesLoop, hk, Outcome.returned.injEq] at h
      rw [← h.1]; exact hacc
    | some name =>
      cases hs : m.Val.lookup "source" with
      | none =>
        simp only [extractModulesLoop, hk, hs, Outcome.returned.injEq] at h
        rw [← h.1]; exact hacc
      | some src =>
        cases name with
        | nil => simp [extractModulesLoop, hk, hs] at h
        | cons n ns =>
          rw [extractModulesLoop_cons_ok m mods acc n ns src hk hs] at h
          refine ih (acc ++ [moduleOf m])
            (fun w hw => hstep w (List.mem_cons_of_mem m hw)) ?_ h
          intro x hx
          rcases List.mem_append.mp hx with hx | hx
          · exact hacc x hx
          · rw [List.mem_singleton.mp hx]
            exact hstep m (List.mem_cons_self m mods) n ns src hk hs

/-- C11, as stated, fails: a module block whose identifier part and `source`
attribute are empty strings is accepted, and the record returned without error
has an empty `Name` and an empty `Source`. -/
theorem extractModules_accepts_empty_name_and_source :
    extractModules [⟨[("module", [""])], [("source", "")], ⟨"", 0, 0⟩⟩]
      = .returned [⟨"", "", ""⟩] none := by
  decide

/-- C11, amended. Every `Module` that `extractModules` returns (without error
in particular) is built from a module-keyed value of the input that has a first
identifier part and a `source` attribute: its `Name` is that identifier part and
its `Source` is the value of that attribute, either of which may be empty. -/
theorem extractModules_records_from_values (values : List Value)
    (items : List Module) (err : Option String)
    (h : extractModules values = .returned items err) :
    ∀ x ∈ items, ∃ v ∈ values, hasKey v.Key "module" = true
      ∧ (∃ ns, v.Key.lookup "module" = some (x.Name :: ns))
      ∧ v.Val.lookup "source" = some x.Source := by
  refine extractModulesLoop_invariant _ (extractElement values MODULE) [] items err ?_ ?_ h
  · intro m hm n ns src hk hs
    rw [extractElement_filter] at hm
    obtain ⟨hmem, hkey⟩ := List.mem_filter.mp hm
    refine ⟨m, hmem, by simpa [ MODULE] using hkey, ⟨ns, ?_⟩, ?_⟩
    · simp [moduleOf, identifierParts, hk]
    · simp [moduleOf, attributeOr, hs]
  · intro x hx; cases hx

theorem extractModules_records_from_values_witness :
    extractModules
        [⟨[("module", ["vpc"])], [("source", "../vpc")], ⟨"a vpc", 0, 0⟩⟩,
         ⟨[("module", [""])], [("source", "")], ⟨"", 0, 0⟩⟩]
      = .returned [⟨"vpc", "a vpc", "../vpc"⟩, ⟨"", "", ""⟩] none
    ∧ ∀ x ∈ [(⟨"vpc", "a vpc", "../vpc"⟩ : Module), ⟨"", "", ""⟩],
      ∃ v ∈ [(⟨[("module", ["vpc"])], [("source", "../vpc")], ⟨"a vpc", 0, 0⟩⟩ : Value),
             ⟨[("module", [""])], [("source", "")], ⟨"", 0, 0⟩⟩],
        hasKey v.Key "module" = true
          ∧ (∃ ns, v.Key.lookup "module" = some (x.Name :: ns))
          ∧ v.Val.lookup "source" = some x.Source :=
  ⟨by decide,
    extractModules_records_from_values
      [⟨[("module", ["vpc"])], [("source", "../vpc")], ⟨"a vpc", 0, 0⟩⟩,
       ⟨[("module", [""])], [("source", "")], ⟨"", 0, 0⟩⟩]
      [⟨"vpc", "a vpc", "../vpc"⟩, ⟨"", "", ""⟩] none (by decide)⟩

/-! ## `parseValues` -/

theorem listTexts_literals (es : List String) :
    listTexts (es.map ListNode.literalType) = es.map trimStrings := by
  induction es with
  | nil => rfl
  | cons e es ih => simp [listTexts, ih]

theorem parseValuesLoop_append (a b : List AttrItem) (result : List (String × String)) :
    parseValuesLoop (a ++ b) result
      = (parseValuesLoop a result).bind (parseValuesLoop b) := by
  induction a generalizing result with
  | nil => rfl
  | cons item a ih =>
    simp only [List.cons_append, parseValuesLoop]
    cases parseValuesStep result item with
    | none => rfl
    | some r => exact ih r

theorem parseValuesStep_total (result : List (String × String)) (item : AttrItem)
    (hkeys : item.Val ≠ .other → item.Keys ≠ []) :
    ∃ r, parseValuesStep result item = some r := by
  obtain ⟨keys, val⟩ := item
  cases val with
  | other => exact ⟨result, rfl⟩
  | literalType text =>
    cases keys with
    | nil => exact absurd rfl (hkeys (by simp))
    | cons k ks => exact ⟨_, rfl⟩
  | listType list =>
    cases keys with
    | nil => exact absurd rfl (hkeys (by simp))
    | cons k ks => exact ⟨_, rfl⟩

theorem parseValuesLoop_total (items : List AttrItem) (result : List (String × String))
    (hkeys : ∀ i ∈ items, i.Val ≠ .other → i.Keys ≠ []) :
    ∃ r, parseValuesLoop items result = some r := by
  induction items generalizing result with
  | nil => exact ⟨result, rfl⟩
  | cons item items ih =>
    obtain ⟨r, hr⟩ := parseValuesStep_total result item (hkeys item (List.mem_cons_self _ _))
    obtain ⟨r2, hr2⟩ := ih r (fun i hi => hkeys i (List.mem_cons_of_mem _ hi))
    exact ⟨r2, by simp [parseValuesLoop, hr, hr2]⟩

theorem parseValuesStep_keeps (result : List (String × String)) (item : AttrItem)
    (name : String)
    (hkeys : item.Val ≠ .other → ∃ k ks, item.Keys = k :: ks ∧ trimStrings k ≠ name) :
    ∃ r, parseValuesStep result item = some r ∧ r.lookup name = result.lookup name := by
  obtain ⟨keys, val⟩ := item
  cases val with
  | other => exact ⟨result, rfl, rfl⟩
  | literalType text =>
    obtain ⟨k, ks, hk, hne⟩ := hkeys (by simp)
    simp only at hk
    subst hk
    refine ⟨_, rfl, ?_⟩
    have hb : (name == trimStrings k) = false := by
      simpa [beq_eq_false_iff_ne] using fun h : name = trimStrings k => hne h.symm
    simp [mapSet, List.lookup, hb]
  | listType list =>
    obtain ⟨k, ks, hk, hne⟩ := hkeys (by simp)
    simp only at hk
    subst hk
    refine ⟨_, rfl, ?_⟩
    have hb : (name == trimStrings k) = false := by
      simpa [beq_eq_false_iff_ne] using fun h : name = trimStrings k => hne h.symm
    simp [mapSet, List.lookup, hb]

theorem parseValuesLoop_keeps (items : List AttrItem) (result : List (String × String))
    (name : String)
    (hkeys : ∀ i ∈ items, i.Val ≠ .other →
      ∃ k ks, i.Keys = k :: ks ∧ trimStrings k ≠ name) :
    ∃ r, parseValuesLoop items result = some r ∧ r.lookup name = result.lookup name := by
  induction items generalizing result with
  | nil => exact ⟨result, rfl, rfl⟩
  | cons item items ih =>
    obtain ⟨r, hr, hl⟩ :=
      parseValuesStep_keeps result item name (hkeys item (List.mem_cons_self _ _))
    obtain ⟨r2, hr2, hl2⟩ := ih r (fun i hi => hkeys i (List.mem_cons_of_mem _ hi))
    exact ⟨r2, by simp [parseValuesLoop, hr, hr2], hl2.trans hl⟩

/-- C12. In a block body `pre ++ item :: post` where `item` is a list-valued
attribute with key `key` and literal elements `es`, where the attributes of
`pre` have keys and those of `post` have keys that trim to another name than
`key`, the loop step for `item` binds the trimmed key to the string "[" followed
by the quote-trimmed elements joined by ", " followed by "]", and the map that
`parseValues` returns gives that string for the name: "[a, b]" for two elements
that trim to `a` and `b`, "[a]" for one, "[]" for none. -/
theorem parseValues_renders_list (pre post : List AttrItem) (key : String)
    (keys : List String) (es : List String)
    (hpre : ∀ i ∈ pre, i.Val ≠ .other → i.Keys ≠ [])
    (hpost : ∀ i ∈ post, i.Val ≠ .other →
      ∃ k ks, i.Keys = k :: ks ∧ trimStrings k ≠ trimStrings key) :
    (∀ result, parseValuesStep result ⟨key :: keys, .listType (es.map .literalType)⟩
        = some (mapSet result (trimStrings key)
            ("[" ++ join (es.map trimStrings) ", " ++ "]")))
      ∧ (∃ m, parseValues (pre ++ ⟨key :: keys, .listType (es.map .literalType)⟩ :: post) = some m
        ∧ m.lookup (trimStrings key) = some ("[" ++ join (es.map trimStrings) ", " ++ "]"))
      ∧ (∀ a b : String, "[" ++ join [a, b] ", " ++ "]" = "[" ++ a ++ ", " ++ b ++ "]")
      ∧ (∀ a : String, "[" ++ join [a] ", " ++ "]" = "[" ++ a ++ "]")
      ∧ "[" ++ join [] ", " ++ "]" = "[]" := by
  refine ⟨fun result => ?_, ?_, ?_, fun a => rfl, by decide⟩
  · simp only [parseValuesStep, listTexts_literals]
  · obtain ⟨r1, hr1⟩ := parseValuesLoop_total pre [] hpre
    obtain ⟨r2, hr2, hl2⟩ := parseValuesLoop_keeps post
      (mapSet r1 (trimStrings key) ("[" ++ join (es.map trimStrings) ", " ++ "]"))
      (trimStrings key) hpost
    refine ⟨r2, ?_, ?_⟩
    · unfold parseValues
      rw [parseValuesLoop_append, hr1]
      simp only [Option.bind, parseValuesLoop, parseValuesStep, listTexts_literals]
      exact hr2
    · rw [hl2]
      simp [mapSet, List.lookup]
  · intro a b
    simp [join, String.append_assoc]

theorem parseValues_renders_list_witness :
    (∀ result, parseValuesStep result
          ⟨"\"hi\"" :: [], .listType (["\"world\"", "world2"].map .literalType)⟩
        = some (mapSet result (trimStrings "\"hi\"")
            ("[" ++ join (["\"world\"", "world2"].map trimStrings) ", " ++ "]")))
      ∧ (∃ m, parseValues
          ([⟨["hello"], .literalType "world"⟩]
            ++ ⟨"\"hi\"" :: [], .listType (["\"world\"", "world2"].map .literalType)⟩
            :: [⟨["nested"], .other⟩, ⟨["n"], .literalType "1"⟩]) = some m
        ∧ m.lookup (trimStrings "\"hi\"")
            = some ("[" ++ join (["\"world\"", "world2"].map trimStrings) ", " ++ "]"))
      ∧ (∀ a b : String, "[" ++ join [a, b] ", " ++ "]" = "[" ++ a ++ ", " ++ b ++ "]")
      ∧ (∀ a : String, "[" ++ join [a] ", " ++ "]" = "[" ++ a ++ "]")
      ∧ "[" ++ join [] ", " ++ "]" = "[]" :=
  parseValues_renders_list [⟨["hello"], .literalType "world"⟩]
    [⟨["nested"], .other⟩, ⟨["n"], .literalType "1"⟩] "\"hi\"" [] ["\"world\"", "world2"]
    (by decide)
    (by
      intro i hi hv
      rcases List.mem_cons.mp hi with rfl | hi
      · exact absurd rfl hv
      · rw [List.mem_singleton.mp hi]
        exact ⟨"n", [], rfl, by decide⟩)

/-! ## `Link` of a module -/

theorem moduleLink_empty_path (t : String) : moduleLink "" t = t := by
  have hl : replaceAll "" '/' '-' ++ "_" ++ t = "_" ++ t := by
    apply String.ext; rfl
  have hp : hasPrefix ("_" ++ t) "_" = true := hasPrefix_append _ _
  have hr : removeFirst ("_" ++ t) '_' = t := by
    apply String.ext
    show ('_' :: t.data).erase '_' = t.data
    simp
  simp only [moduleLink, hl, hp, hr, if_true]

theorem moduleLink_underscore_path (q t : String) :
    moduleLink ("_" ++ q) t = replaceAll q '/' '-' ++ "_" ++ t := by
  have hl : replaceAll ("_" ++ q) '/' '-' ++ "_" ++ t
      = "_" ++ (replaceAll q '/' '-' ++ "_" ++ t) := by
    apply String.ext
    show (('_' :: q.data).map (fun c => if c = '/' then '-' else c)) ++ "_".data ++ t.data
      = '_' :: ((q.data.map (fun c => if c = '/' then '-' else c)) ++ "_".data ++ t.data)
    simp
  have hp : hasPrefix ("_" ++ (replaceAll q '/' '-' ++ "_" ++ t)) "_" = true :=
    hasPrefix_append _ _
  have hr : removeFirst ("_" ++ (replaceAll q '/' '-' ++ "_" ++ t)) '_'
      = replaceAll q '/' '-' ++ "_" ++ t := by
    apply String.ext
    show ('_' :: (replaceAll q '/' '-' ++ "_" ++ t).data).erase '_' = _
    simp
  simp only [moduleLink, hl, hp, hr, if_true]

theorem hasPrefix_underscore_iff (s : String) :
    hasPrefix s "_" = true ↔ ∃ rest, s.data = '_' :: rest := by
  rw [hasPrefix_iff_append]
  constructor
  · rintro ⟨t, rfl⟩; exact ⟨t.data, rfl⟩
  · rintro ⟨rest, h⟩; exact ⟨⟨rest⟩, String.ext h⟩

theorem moduleLink_plain_path (p t : String) (hne : p ≠ "")
    (hp : hasPrefix p "_" = false) :
    moduleLink p t = replaceAll p '/' '-' ++ "_" ++ t
      ∧ hasPrefix (moduleLink p t) "_" = false := by
  have hno : hasPrefix (replaceAll p '/' '-' ++ "_" ++ t) "_" = false := by
    cases h : hasPrefix (replaceAll p '/' '-' ++ "_" ++ t) "_" with
    | false => rfl
    | true =>
      exfalso
      obtain ⟨rest, hrest⟩ := (hasPrefix_underscore_iff _).mp h
      obtain ⟨pd⟩ := p
      cases pd with
      | nil => exact hne rfl
      | cons c cs =>
        have hhead : (if c = '/' then '-' else c) = '_' := by
          have := congrArg List.head? hrest
          simpa [replaceAll] using this
        have hc : c = '_' := by
          by_cases hslash : c = '/'
          · rw [if_pos hslash] at hhead; exact absurd hhead (by decide)
          · rw [if_neg hslash] at hhead; exact hhead
        subst hc
        have : hasPrefix ⟨'_' :: cs⟩ "_" = true :=
          (hasPrefix_underscore_iff _).mpr ⟨cs, rfl⟩
        rw [this] at hp
        cases hp
  have hlink : moduleLink p t = replaceAll p '/' '-' ++ "_" ++ t := by
    simp only [moduleLink, hno]
    rfl
  exact ⟨hlink, by rw [hlink]; exact hno⟩

/-- C15, as stated, fails: for the non-empty path "_a" and the title "m" the
link is "a_m", not "_a_m". -/
theorem moduleLink_strips_underscore_of_path :
    moduleLink "_a" "m" = "a_m"
      ∧ "_a" ≠ ""
      ∧ moduleLink "_a" "m" ≠ replaceAll "_a" '/' '-' ++ "_" ++ "m" := by
  decide

/-- C15, amended. The link of a module with title `t` and path `p` is `t` when
`p` is empty; it is `p` with every "/" replaced by "-", followed by "_" and
`t`, when `p` is non-empty and does not begin with "_"; and when the path
begins with "_", say it is "_" followed by `q`, the link is `q` with every
"/" replaced by "-", followed by "_" and `t`. -/
theorem moduleLink_spec (p t : String) :
    (p = "" → moduleLink p t = t)
      ∧ (p ≠ "" → hasPrefix p "_" = false →
          moduleLink p t = replaceAll p '/' '-' ++ "_" ++ t)
      ∧ moduleLink ("_" ++ p) t = replaceAll p '/' '-' ++ "_" ++ t := by
  refine ⟨?_, ?_, moduleLink_underscore_path p t⟩
  · rintro rfl; exact moduleLink_empty_path t
  · intro hne hp; exact (moduleLink_plain_path p t hne hp).1

/-- C16, as stated, fails: a module with the title "_x" and an empty path gets
the link "_x", and the path "__a" with the title "m" gives "_a_m"; both begin
with the separator. -/
theorem moduleLink_can_begin_with_separator :
    moduleLink "" "_x" = "_x" ∧ hasPrefix (moduleLink "" "_x") "_" = true
      ∧ moduleLink "__a" "m" = "_a_m" ∧ hasPrefix (moduleLink "__a" "m") "_" = true := by
  decide

/-- C16, amended. The link never begins with "_" when the path is non-empty
and does not begin with "_", nor when the path is empty and the title does not
begin with "_"; when the path begins with "_", the link begins with "_" exactly
when what follows that first "_" in the path with "/" replaced, then "_" and the
title does. -/
theorem moduleLink_leading_separator (p t : String) :
    (p ≠ "" → hasPrefix p "_" = false → hasPrefix (moduleLink p t) "_" = false)
      ∧ (hasPrefix t "_" = false → hasPrefix (moduleLink "" t) "_" = false)
      ∧ hasPrefix (moduleLink ("_" ++ p) t) "_"
          = hasPrefix (replaceAll p '/' '-' ++ "_" ++ t) "_" := by
  refine ⟨?_, ?_, ?_⟩
  · intro hne hp; exact (moduleLink_plain_path p t hne hp).2
  · intro ht; rw [moduleLink_empty_path]; exact ht
  · rw [moduleLink_underscore_path]

/-! ## `Path` of a module -/

theorem join_data (a : String) (rest : List String) (sep : String) :
    (join (a :: rest) sep).data
      = a.data ++ (rest.map (fun s => sep.data ++ s.data)).flatten := by
  induction rest generalizing a with
  | nil => simp [join]
  | cons b rest ih =>
    simp only [join, String.data_append, ih, List.map_cons, List.flatten_cons,
      List.append_assoc]

theorem splitChars_ne_nil (sep : Char) (l : List Char) : splitChars sep l ≠ [] := by
  cases l with
  | nil => simp [splitChars]
  | cons c cs =>
    unfold splitChars
    split
    · simp
    · split <;> simp

theorem splitChars_append_sep (sep : Char) (r t : List Char) :
    splitChars sep (r ++ sep :: t) = splitChars sep r ++ splitChars sep t := by
  induction r with
  | nil => simp [splitChars]
  | cons c r ih =>
    by_cases hc : c = sep
    · simp [splitChars, hc, ih]
    · obtain ⟨piece, pieces, hsplit⟩ := List.exists_cons_of_ne_nil (splitChars_ne_nil sep r)
      simp [splitChars, hc, ih, hsplit]

theorem splitChars_of_not_mem (sep : Char) (l : List Char) (h : sep ∉ l) :
    splitChars sep l = [l] := by
  induction l with
  | nil => rfl
  | cons c l ih =>
    have hc : c ≠ sep := fun e => h (e ▸ List.mem_cons_self _ _)
    have hl : sep ∉ l := fun e => h (List.mem_cons_of_mem _ e)
    simp [splitChars, hc, ih hl]

theorem splitChars_segments (sep : Char) (r : List Char) (segs : List (List Char))
    (hsegs : ∀ s ∈ segs, sep ∉ s) :
    splitChars sep (r ++ (segs.map (fun s => sep :: s)).flatten)
      = splitChars sep r ++ segs := by
  induction segs generalizing r with
  | nil => simp
  | cons s segs ih =>
    have hs : sep ∉ s := hsegs s (List.mem_cons_self _ _)
    simp only [List.map_cons, List.flatten_cons, List.cons_append]
    rw [splitChars_append_sep, ih s (fun x hx => hsegs x (List.mem_cons_of_mem _ hx)),
      splitChars_of_not_mem sep s hs]
    simp

theorem split_join (r : String) (segs : List String) (hsegs : ∀ s ∈ segs, '/' ∉ s.data) :
    split (join (r :: segs) "/") '/' = split r '/' ++ segs := by
  have hd : (join (r :: segs) "/").data
      = r.data ++ ((segs.map String.data).map (fun s => '/' :: s)).flatten := by
    rw [join_data]
    simp [List.map_map, Function.comp_def]
  have hseg : ∀ s ∈ segs.map String.data, '/' ∉ s := by
    intro s hs
    obtain ⟨x, hx, rfl⟩ := List.mem_map.mp hs
    exact hsegs x hx
  unfold split
  rw [hd, splitChars_segments '/' r.data _ hseg]
  simp [List.map_map, Function.comp_def]

/-- C17. For a scan root `r` and a module directory `r/s1/.../sk` whose
segments `s1 .. sk` are non-empty and free of "/", the path assigned is
`s1/.../s(k-1)`, the segments without the last one joined by "/" (neither the
root nor the leaf directory of the module is part of it); it is the empty
string when `k ≤ 1`. -/
theorem modulePath_segments (r : String) (segs : List String)
    (hsegs : ∀ s ∈ segs, s ≠ "" ∧ '/' ∉ s.data) :
    modulePath r (join (r :: segs) "/") = join segs.dropLast "/"
      ∧ (segs.length ≤ 1 → modulePath r (join (r :: segs) "/") = "") := by
  have hsplit := split_join r segs (fun s hs => (hsegs s hs).2)
  have hpath : modulePath r (join (r :: segs) "/") = join segs.dropLast "/" := by
    unfold modulePath
    simp only [hsplit, List.length_append]
    by_cases hk : 2 ≤ segs.length
    · have hgt : (split r '/').length + segs.length > (split r '/').length + 1 := by omega
      rw [if_pos hgt]
      have htake : (split r '/' ++ segs).take ((split r '/').length + segs.length - 1)
          = split r '/' ++ segs.take (segs.length - 1) := by
        rw [List.take_append_eq_append_take]
        have h1 : (split r '/').length ≤ (split r '/').length + segs.length - 1 := by omega
        rw [List.take_of_length_le h1]
        congr 2
        omega
      rw [htake, List.drop_left, ← List.dropLast_eq_take]
    · have hle : ¬ ((split r '/').length + segs.length > (split r '/').length + 1) := by omega
      rw [if_neg hle]
      match segs, hk with
      | [], _ => rfl
      | [_], _ => rfl
      | _ :: _ :: _, hk => exact absurd (by simp) hk
  refine ⟨hpath, ?_⟩
  intro hk
  rw [hpath]
  match segs, hk with
  | [], _ => rfl
  | [_], _ => rfl

theorem modulePath_segments_witness :
    modulePath "./testdata/modules" (join ("./testdata/modules" :: ["aws", "network", "vpc"]) "/")
        = join ["aws", "network", "vpc"].dropLast "/"
      ∧ (["aws", "network", "vpc"].length ≤ 1 →
          modulePath "./testdata/modules"
            (join ("./testdata/modules" :: ["aws", "network", "vpc"]) "/") = "") :=
  modulePath_segments "./testdata/modules" ["aws", "network", "vpc"] (by decide)

/-! ## `trimStrings`: what is removed -/

theorem hasSuffix_iff_append (s p : String) :
    hasSuffix s p = true ↔ ∃ t : String, s = t ++ p := by
  constructor
  · intro h
    have hsuf : p.data <:+ s.data := by simpa [hasSuffix] using h
    obtain ⟨t, ht⟩ := hsuf
    exact ⟨⟨t⟩, String.ext (by simp [ht])⟩
  · rintro ⟨t, rfl⟩
    exact hasSuffix_append t p

theorem trimPrefix_decompose (s p : String) :
    ∃ a : String, (a = "" ∨ a = p) ∧ s = a ++ trimPrefix s p := by
  cases h : hasPrefix s p with
  | false =>
    refine ⟨"", Or.inl rfl, ?_⟩
    rw [trimPrefix_of_not_hasPrefix s p h]
    exact String.ext (by simp)
  | true =>
    obtain ⟨t, rfl⟩ := (hasPrefix_iff_append s p).mp h
    exact ⟨p, Or.inr rfl, by rw [trimPrefix_append]⟩

theorem trimSuffix_decompose (s p : String) :
    ∃ b : String, (b = "" ∨ b = p) ∧ s = trimSuffix s p ++ b := by
  cases h : hasSuffix s p with
  | false =>
    refine ⟨"", Or.inl rfl, ?_⟩
    rw [trimSuffix_of_not_hasSuffix s p h]
    exact String.ext (by simp)
  | true =>
    obtain ⟨t, rfl⟩ := (hasSuffix_iff_append s p).mp h
    exact ⟨p, Or.inr rfl, by rw [trimSuffix_append]⟩

/-- C26, as stated, fails: from the input made of an escaped quote, a plain
quote and `x`, `trimStrings` removes both delimiters at the front and returns
"x"; no choice of one delimiter per end, or none, rebuilds the input. -/
theorem trimStrings_removes_two_from_one_end :
    trimStrings "\\\"\"x" = "x"
      ∧ ¬ ∃ p q : String, (p = "" ∨ p = "\"" ∨ p = "\\\"") ∧ (q = "" ∨ q = "\"" ∨ q = "\\\"")
          ∧ "\\\"\"x" = p ++ trimStrings "\\\"\"x" ++ q := by
  refine ⟨by decide, ?_⟩
  rintro ⟨p, q, hp, hq, h⟩
  rcases hp with rfl | rfl | rfl <;> rcases hq with rfl | rfl | rfl <;> revert h <;> decide

/-- C26, amended. From each end `trimStrings` removes at most one escaped quote
and then at most one plain quote: every input `s` is `a ++ c ++ trimStrings s ++
d ++ b` where `a` and `b` are empty or the escaped quote and `c` and `d` are
empty or the plain quote. -/
theorem trimStrings_decompose (s : String) :
    ∃ a c d b : String, (a = "" ∨ a = "\\\"") ∧ (c = "" ∨ c = "\"")
      ∧ (d = "" ∨ d = "\"") ∧ (b = "" ∨ b = "\\\"")
      ∧ s = a ++ c ++ trimStrings s ++ d ++ b := by
  obtain ⟨a, ha, h1⟩ := trimPrefix_decompose s "\\\""
  obtain ⟨b, hb, h2⟩ := trimSuffix_decompose (trimPrefix s "\\\"") "\\\""
  obtain ⟨c, hc, h3⟩ :=
    trimPrefix_decompose (trimSuffix (trimPrefix s "\\\"") "\\\"") "\""
  obtain ⟨d, hd, h4⟩ := trimSuffix_decompose
    (trimPrefix (trimSuffix (trimPrefix s "\\\"") "\\\"") "\"") "\""
  refine ⟨a, c, d, b, ha, hc, hd, hb, ?_⟩
  rw [trimStrings_eq]
  calc s = a ++ trimPrefix s "\\\"" := h1
    _ = a ++ (trimSuffix (trimPrefix s "\\\"") "\\\"" ++ b) := by rw [← h2]
    _ = a ++ ((c ++ trimPrefix (trimSuffix (trimPrefix s "\\\"") "\\\"") "\"") ++ b) := by
        rw [← h3]
    _ = a ++ ((c ++ (trimSuffix
          (trimPrefix (trimSuffix (trimPrefix s "\\\"") "\\\"") "\"") "\"" ++ d)) ++ b) := by
        rw [← h4]
    _ = _ := by simp only [String.append_assoc]

/-- C27, as stated, fails: an input with two plain quotes on each end loses one
pair at each application, so a second application changes the result. -/
theorem trimStrings_not_idempotent :
    trimStrings "\"\"x\"\"" = "\"x\""
      ∧ trimStrings (trimStrings "\"\"x\"\"") = "x"
      ∧ trimStrings (trimStrings "\"\"x\"\"") ≠ trimStrings "\"\"x\"\"" := by
  decide

/-- C27, amended. Quote-trimming is idempotent on every input whose trimmed form
no longer begins with a plain or an escaped quote and no longer ends with a
quote: then `trimStrings (trimStrings s) = trimStrings s`. -/
theorem trimStrings_idempotent_of_bare (s : String)
    (hq : hasPrefix (trimStrings s) "\"" = false)
    (he : hasPrefix (trimStrings s) "\\\"" = false)
    (hs : hasSuffix (trimStrings s) "\"" = false) :
    trimStrings (trimStrings s) = trimStrings s := by
  have hse : hasSuffix (trimStrings s) "\\\"" = false := by
    cases h : hasSuffix (trimStrings s) "\\\"" with
    | false => rfl
    | true =>
      obtain ⟨t, ht⟩ := (hasSuffix_iff_append _ _).mp h
      have : hasSuffix (trimStrings s) "\"" = true := by
        rw [ht]
        have hE : t ++ "\\\"" = (t ++ "\\") ++ "\"" := by
          rw [String.append_assoc]; rfl
        rw [hE]
        exact hasSuffix_append _ _
      rw [this] at hs
      cases hs
  generalize trimStrings s = r at hq he hs hse
  rw [trimStrings_eq, trimPrefix_of_not_hasPrefix r _ he, trimSuffix_of_not_hasSuffix r _ hse,
    trimPrefix_of_not_hasPrefix r _ hq, trimSuffix_of_not_hasSuffix r _ hs]

theorem trimStrings_idempotent_of_bare_witness :
    trimStrings (trimStrings "\\\"hello\\\"") = trimStrings "\\\"hello\\\"" :=
  trimStrings_idempotent_of_bare "\\\"hello\\\"" (by decide) (by decide) (by decide)

/-! ## Links of different modules -/

theorem append_cons_unique {α : Type} (x : α) (a c b d : List α) (ha : x ∉ a) (hc : x ∉ c)
    (h : a ++ x :: b = c ++ x :: d) : a = c ∧ b = d := by
  induction a generalizing c with
  | nil =>
    cases c with
    | nil => simpa using h
    | cons y c =>
      simp only [List.nil_append, List.cons_append, List.cons.injEq] at h
      exact absurd (h.1 ▸ List.mem_cons_self _ _) hc
  | cons y a ih =>
    cases c with
    | nil =>
      simp only [List.nil_append, List.cons_append, List.cons.injEq] at h
      exact absurd (h.1 ▸ List.mem_cons_self _ _) ha
    | cons z c =>
      simp only [List.cons_append, List.cons.injEq] at h
      obtain ⟨hac, hbd⟩ := ih c (fun e => ha (List.mem_cons_of_mem _ e))
        (fun e => hc (List.mem_cons_of_mem _ e)) h.2
      exact ⟨by rw [h.1, hac], hbd⟩

theorem replaceSlash_injective (a b : List Char) (ha : '-' ∉ a) (hb : '-' ∉ b)
    (h : a.map (fun c => if c = '/' then '-' else c)
      = b.map (fun c => if c = '/' then '-' else c)) : a = b := by
  induction a generalizing b with
  | nil =>
    cases b with
    | nil => rfl
    | cons y b => simp at h
  | cons x a ih =>
    cases b with
    | nil => simp at h
    | cons y b =>
      simp only [List.map_cons, List.cons.injEq] at h
      have hx : x ≠ '-' := fun e => ha (e ▸ List.mem_cons_self _ _)
      have hy : y ≠ '-' := fun e => hb (e ▸ List.mem_cons_self _ _)
      have hxy : x = y := by
        have h1 := h.1
        by_cases h1x : x = '/'
        · by_cases h1y : y = '/'
          · rw [h1x, h1y]
          · rw [if_pos h1x, if_neg h1y] at h1
            exact absurd h1.symm hy
        · by_cases h1y : y = '/'
          · rw [if_neg h1x, if_pos h1y] at h1
            exact absurd h1 hx
          · rw [if_neg h1x, if_neg h1y] at h1
            exact h1
      rw [hxy, ih b (fun e => ha (List.mem_cons_of_mem _ e))
        (fun e => hb (List.mem_cons_of_mem _ e)) h.2]

theorem replaceAll_no_underscore (p : String) (hp : '_' ∉ p.data) :
    '_' ∉ (replaceAll p '/' '-').data := by
  intro hmem
  obtain ⟨c, hc, hfc⟩ := List.mem_map.mp hmem
  by_cases hslash : c = '/'
  · rw [if_pos hslash] at hfc
    exact absurd hfc (by decide)
  · rw [if_neg hslash] at hfc
    exact hp (hfc ▸ hc)

theorem moduleLink_of_clean_path (p t : String) (hne : p ≠ "") (hp : '_' ∉ p.data) :
    (moduleLink p t).data = (replaceAll p '/' '-').data ++ '_' :: t.data := by
  rw [(moduleLink_plain_path p t hne
    (hasPrefix_false_of_not_mem p "_" '_' (by decide) hp)).1]
  simp only [String.data_append, List.append_assoc]
  rfl

/-- C28, as stated, fails: the pairs (Path "a", Title "b_c") and (Path "a_b",
Title "c") have non-empty titles and path segments without "/", they differ, and
both get the link "a_b_c"; so do (Path "a/b", Title "c") and (Path "a-b", Title
"c") with the link "a-b_c". -/
theorem moduleLink_collision :
    (("a", "b_c") : String × String) ≠ ("a_b", "c")
      ∧ moduleLink "a" "b_c" = moduleLink "a_b" "c"
      ∧ (("a/b", "c") : String × String) ≠ ("a-b", "c")
      ∧ moduleLink "a/b" "c" = moduleLink "a-b" "c"
      ∧ (∀ p ∈ ["a", "a_b", "a/b", "a-b"], ∀ s ∈ split p '/', s ≠ "" ∧ '/' ∉ s.data)
      ∧ (∀ t ∈ ["b_c", "c"], t ≠ "" ∧ '/' ∉ t.data) := by
  decide

/-- C28, amended. Among the (Path, Title) pairs in which neither the path nor
the title contains "_" and the path does not contain "-", two different pairs
never get the same link. -/
theorem moduleLink_injective (p1 t1 p2 t2 : String)
    (hp1 : '_' ∉ p1.data) (hd1 : '-' ∉ p1.data) (ht1 : '_' ∉ t1.data)
    (hp2 : '_' ∉ p2.data) (hd2 : '-' ∉ p2.data) (ht2 : '_' ∉ t2.data)
    (h : moduleLink p1 t1 = moduleLink p2 t2) : p1 = p2 ∧ t1 = t2 := by
  by_cases h1 : p1 = ""
  · subst h1
    rw [moduleLink_empty_path] at h
    by_cases h2 : p2 = ""
    · subst h2
      rw [moduleLink_empty_path] at h
      exact ⟨rfl, h⟩
    · exfalso
      have hdata := moduleLink_of_clean_path p2 t2 h2 hp2
      rw [← h] at hdata
      exact ht1 (by rw [hdata]; simp)
  · by_cases h2 : p2 = ""
    · exfalso
      subst h2
      rw [moduleLink_empty_path] at h
      have hdata := moduleLink_of_clean_path p1 t1 h1 hp1
      rw [h] at hdata
      exact ht2 (by rw [hdata]; simp)
    · have hdata : (replaceAll p1 '/' '-').data ++ '_' :: t1.data
          = (replaceAll p2 '/' '-').data ++ '_' :: t2.data := by
        rw [← moduleLink_of_clean_path p1 t1 h1 hp1, ← moduleLink_of_clean_path p2 t2 h2 hp2, h]
      obtain ⟨hrep, ht⟩ := append_cons_unique '_' _ _ _ _
        (replaceAll_no_underscore p1 hp1) (replaceAll_no_underscore p2 hp2) hdata
      exact ⟨String.ext (replaceSlash_injective p1.data p2.data hd1 hd2 hrep), String.ext ht⟩

theorem moduleLink_injective_witness :
    moduleLink "aws/network" "vpc" = moduleLink "aws/network" "vpc"
      ∧ "aws/network" = "aws/network" ∧ "vpc" = "vpc" :=
  ⟨rfl, moduleLink_injective "aws/network" "vpc" "aws/network" "vpc"
    (by decide) (by decide) (by decide) (by decide) (by decide) (by decide) rfl⟩

/-! ## `extractValues` -/

theorem extractValuesLoop_acc (items : List BlockItem) (acc values : List Value)
    (h : extractValuesLoop items acc = some values) :
    ∃ produced, values = acc ++ produced
      ∧ List.Forall₂ (fun item value => extractValuesStep item = some value) items produced := by
  induction items generalizing acc with
  | nil =>
    simp only [extractValuesLoop, Option.some.injEq] at h
    exact ⟨[], by simp [h], List.Forall₂.nil⟩
  | cons item items ih =>
    cases hstep : extractValuesStep item with
    | none => simp [extractValuesLoop, hstep] at h
    | some value =>
      simp only [extractValuesLoop, hstep] at h
      obtain ⟨produced, hvalues, hall⟩ := ih (acc ++ [value]) h
      exact ⟨value :: produced, by simp [hvalues], List.Forall₂.cons hstep hall⟩

theorem extractValuesLoop_total (items : List BlockItem) (acc : List Value)
    (hstep : ∀ item ∈ items, ∃ value, extractValuesStep item = some value) :
    ∃ values, extractValuesLoop items acc = some values := by
  induction items generalizing acc with
  | nil => exact ⟨acc, rfl⟩
  | cons item items ih =>
    obtain ⟨value, hvalue⟩ := hstep item (List.mem_cons_self _ _)
    obtain ⟨values, hvalues⟩ :=
      ih (acc ++ [value]) (fun i hi => hstep i (List.mem_cons_of_mem _ hi))
    exact ⟨values, by simp [extractValuesLoop, hvalue, hvalues]⟩

theorem extractValuesStep_object (item : BlockItem) (body : List AttrItem)
    (hbody : item.Val = .objectType body) (hkeys : item.Keys ≠ [])
    (hattrs : ∀ a ∈ body, a.Val ≠ .other → a.Keys ≠ [])
    (hcomment : ∀ g, item.LeadComment = some g → g.List ≠ []) :
    ∃ value, extractValuesStep item = some value
      ∧ (∃ key rest, item.Keys = key :: rest ∧ value.Key = [(key, rest.map trimStrings)])
      ∧ parseValues body = some value.Val
      ∧ (∃ err, parseComment item.LeadComment = .returned value.Comment err)
      ∧ (item.LeadComment = none → value.Comment = ⟨"", 0, 0⟩) := by
  obtain ⟨keys, val, lead⟩ := item
  simp only at hbody hkeys hcomment
  subst hbody
  obtain ⟨attrs, hattrsEq⟩ := parseValuesLoop_total body [] hattrs
  have hpv : parseValues body = some attrs := hattrsEq
  cases keys with
  | nil => exact absurd rfl hkeys
  | cons key rest =>
    cases lead with
    | none =>
      refine ⟨⟨[(key, rest.map trimStrings)], attrs, ⟨"", 0, 0⟩⟩, ?_, ⟨key, rest, rfl, rfl⟩,
        hpv, ⟨some "comment is nil", rfl⟩, fun _ => rfl⟩
      simp [extractValuesStep, hpv, parseKeys, mapSet, parseComment]
    | some g =>
      obtain ⟨entries⟩ := g
      cases entries with
      | nil => exact absurd rfl (hcomment _ rfl)
      | cons c cs =>
        refine ⟨⟨[(key, rest.map trimStrings)], attrs,
          ⟨join ((c :: cs).map (fun e : AstComment => tidyComment e.Text)) " ",
            c.Start.Column, c.Start.Line⟩⟩, ?_, ⟨key, rest, rfl, rfl⟩, hpv, ⟨none, rfl⟩, ?_⟩
        · simp [extractValuesStep, hpv, parseKeys, mapSet, parseComment, commentGroupPos]
        · intro h; cases h

/-- C24. For a tree whose top-level blocks all have a non-empty key list (and
which, being a parsed tree, has keys on the attributes of its block bodies and
no leading comment group without entries), `extractValues` returns exactly one
`Value` per top-level block, in block order; for a block whose body is a
nested-attribute object the `Key` map of its `Value` is the single entry from
the first key token text to the other key tokens, each quote-trimmed, in order,
its `Val` is `parseValues` of the body, and its `Comment` is the one that
`parseComment` gives for the leading comment group, the empty `Comment` when
there is none. -/
theorem extractValues_one_value_per_block (items : List BlockItem)
    (hkeys : ∀ item ∈ items, item.Keys ≠ [])
    (hattrs : ∀ item ∈ items, ∀ body, item.Val = .objectType body →
      ∀ a ∈ body, a.Val ≠ .other → a.Keys ≠ [])
    (hcomments : ∀ item ∈ items, ∀ g, item.LeadComment = some g → g.List ≠ []) :
    ∃ values, extractValues items = some values
      ∧ values.length = items.length
      ∧ List.Forall₂
          (fun item value => ∀ body, item.Val = .objectType body →
            (∃ key rest, item.Keys = key :: rest ∧ value.Key = [(key, rest.map trimStrings)])
              ∧ parseValues body = some value.Val
              ∧ (∃ err, parseComment item.LeadComment = .returned value.Comment err)
              ∧ (item.LeadComment = none → value.Comment = ⟨"", 0, 0⟩))
          items values := by
  have hstep : ∀ item ∈ items, ∃ value, extractValuesStep item = some value := by
    intro item hitem
    cases hval : item.Val with
    | other => exact ⟨⟨[], [], ⟨"", 0, 0⟩⟩, by simp [extractValuesStep, hval]⟩
    | objectType body =>
      obtain ⟨value, hvalue, _⟩ := extractValuesStep_object item body hval (hkeys item hitem)
        (hattrs item hitem body hval) (hcomments item hitem)
      exact ⟨value, hvalue⟩
  obtain ⟨values, hvalues⟩ := extractValuesLoop_total items [] hstep
  obtain ⟨produced, hprod, hall⟩ := extractValuesLoop_acc items [] values hvalues
  simp only [List.nil_append] at hprod
  subst hprod
  refine ⟨values, hvalues, hall.length_eq.symm, ?_⟩
  have hmem : ∀ item ∈ items, ∀ value, extractValuesStep item = some value →
      ∀ body, item.Val = .objectType body →
        (∃ key rest, item.Keys = key :: rest ∧ value.Key = [(key, rest.map trimStrings)])
          ∧ parseValues body = some value.Val
          ∧ (∃ err, parseComment item.LeadComment = .returned value.Comment err)
          ∧ (item.LeadComment = none → value.Comment = ⟨"", 0, 0⟩) := by
    intro item hitem value hvalue body hbody
    obtain ⟨value2, hvalue2, hspec⟩ := extractValuesStep_object item body hbody
      (hkeys item hitem) (hattrs item hitem body hbody) (hcomments item hitem)
    rw [hvalue] at hvalue2
    cases hvalue2
    exact hspec
  clear hvalues hstep hkeys hattrs hcomments
  induction hall with
  | nil => exact List.Forall₂.nil
  | cons hhead _ ih =>
    exact List.Forall₂.cons (hmem _ (List.mem_cons_self _ _) _ hhead)
      (ih (fun item hitem => hmem item (List.mem_cons_of_mem _ hitem)))

theorem extractValues_one_value_per_block_witness :
    ∃ values, extractValues sampleBlocks = some values
      ∧ values.length = sampleBlocks.length
      ∧ List.Forall₂
          (fun item value => ∀ body, item.Val = .objectType body →
            (∃ key rest, item.Keys = key :: rest ∧ value.Key = [(key, rest.map trimStrings)])
              ∧ parseValues body = some value.Val
              ∧ (∃ err, parseComment item.LeadComment = .returned value.Comment err)
              ∧ (item.LeadComment = none → value.Comment = ⟨"", 0, 0⟩))
          sampleBlocks values :=
  extractValues_one_value_per_block sampleBlocks (by decide)
    (by
      intro item hitem body hbody a ha _
      rcases List.mem_cons.mp hitem with rfl | hitem
      · injection hbody with hbody
        subst hbody
        rw [List.mem_singleton.mp ha]
        decide
      · rw [List.mem_singleton.mp hitem] at hbody
        cases hbody)
    (by
      intro item hitem g hg
      rcases List.mem_cons.mp hitem with rfl | hitem
      · injection hg with hg
        subst hg
        decide
      · rw [List.mem_singleton.mp hitem] at hg
        cases hg)

theorem forall₂_split_at {α β : Type} (R : α → β → Prop) (pre post : List α) (x : α)
    (ys : List β) (h : List.Forall₂ R (pre ++ x :: post) ys) :
    ∃ ypre y ypost, ys = ypre ++ y :: ypost ∧ ypre.length = pre.length ∧ R x y := by
  induction pre generalizing ys with
  | nil =>
    cases h with
    | cons hxy _ => exact ⟨[], _, _, rfl, rfl, hxy⟩
  | cons p pre ih =>
    cases h with
    | cons _ hrest =>
      obtain ⟨ypre, y, ypost, hys, hlen, hR⟩ := ih _ hrest
      exact ⟨_ :: ypre, y, ypost, by rw [hys]; rfl, by simp [hlen], hR⟩

/-- C25, as stated, fails: for a top-level item whose body is not an object,
here an assignment with the key "region" under a leading comment, the `Value`
produced has no keyword in its `Key` map and the empty `Comment`. -/
theorem extractValues_drops_keys_of_other_body :
    extractValues [⟨["region"], .other, some ⟨[⟨⟨1, 1⟩, "// where"⟩]⟩⟩]
        = some [⟨[], [], ⟨"", 0, 0⟩⟩]
      ∧ parseKeys ["region"] = some [("region", [])]
      ∧ parseComment (some ⟨[⟨⟨1, 1⟩, "// where"⟩]⟩) = .returned ⟨"where", 1, 1⟩ none := by
  decide

/-- C25, amended. For a top-level block whose body is not a nested-attribute
object, the `Value` that `extractValues` produces at the block's position is the
empty `Value`: its `Key` map, its attribute map and its `Comment` are all empty,
whatever the keys and the leading comment of the block. -/
theorem extractValues_other_body_empty_value (pre post : List BlockItem) (item : BlockItem)
    (values : List Value) (hbody : item.Val = .other)
    (h : extractValues (pre ++ item :: post) = some values) :
    values.length = pre.length + 1 + post.length
      ∧ values[pre.length]? = some ⟨[], [], ⟨"", 0, 0⟩⟩ := by
  obtain ⟨produced, hprod, hall⟩ := extractValuesLoop_acc _ [] values h
  simp only [List.nil_append] at hprod
  subst hprod
  refine ⟨?_, ?_⟩
  · rw [← hall.length_eq]
    simp
    omega
  · obtain ⟨ypre, y, ypost, hys, hlen, hstep⟩ := forall₂_split_at _ pre post item values hall
    have hy : y = ⟨[], [], ⟨"", 0, 0⟩⟩ := by
      simp only [extractValuesStep, hbody, Option.some.injEq] at hstep
      exact hstep.symm
    rw [hys, ← hlen, hy, List.getElem?_append_right (Nat.le_refl _)]
    simp

theorem extractValues_other_body_empty_value_witness :
    extractValues (sampleBlocks.take 1 ++ ⟨["region"], .other, none⟩ :: [])
        = some [⟨[("output", ["test"])], [("value", "testVal")], ⟨"an output", 1, 1⟩⟩,
                ⟨[], [], ⟨"", 0, 0⟩⟩]
      ∧ [(⟨[("output", ["test"])], [("value", "testVal")], ⟨"an output", 1, 1⟩⟩ : Value),
          ⟨[], [], ⟨"", 0, 0⟩⟩].length = (sampleBlocks.take 1).length + 1 + ([] : List BlockItem).length
      ∧ [(⟨[("output", ["test"])], [("value", "testVal")], ⟨"an output", 1, 1⟩⟩ : Value),
          ⟨[], [], ⟨"", 0, 0⟩⟩][(sampleBlocks.take 1).length]? = some ⟨[], [], ⟨"", 0, 0⟩⟩ :=
  ⟨by decide,
    extractValues_other_body_empty_value (sampleBlocks.take 1) [] ⟨["region"], .other, none⟩
      [⟨[("output", ["test"])], [("value", "testVal")], ⟨"an output", 1, 1⟩⟩,
       ⟨[], [], ⟨"", 0, 0⟩⟩] rfl (by decide)⟩

/-! ## `Parse` -/

theorem parseTexts_ok (hclParse : String → Except String File) (texts : List String)
    (trees acc : List File)
    (h : List.Forall₂ (fun text tree => hclParse text = .ok tree) texts trees) :
    parseTexts hclParse texts acc = .ok (acc ++ trees) := by
  induction h generalizing acc with
  | nil => simp [parseTexts]
  | cons hhead _ ih => simp [parseTexts, hhead, ih]

theorem parseLoop_cons_ok (result : TFModule) (name : String) (tree : File)
    (trees : List File) (acc r : Collected) (h : FileYields tree r) :
    parseLoop result name (tree :: trees) acc
      = parseLoop result name trees
          { Comments := acc.Comments ++ r.Comments,
            Variables := acc.Variables ++ r.Variables,
            Outputs := acc.Outputs ++ r.Outputs,
            Modules := acc.Modules ++ r.Modules,
            Resources := acc.Resources ++ r.Resources } := by
  obtain ⟨hc, values, hv, h1, h2, h3, h4⟩ := h
  simp only [parseLoop, hc, hv, h1, h2, h3, h4]

theorem parseLoop_prefix_ok (result : TFModule) (name : String) (pre rest : List File)
    (per : List Collected) (acc : Collected) (h : List.Forall₂ FileYields pre per) :
    parseLoop result name (pre ++ rest) acc
      = parseLoop result name rest
          { Comments := acc.Comments ++ (per.map (fun r => r.Comments)).flatten,
            Variables := acc.Variables ++ (per.map (fun r => r.Variables)).flatten,
            Outputs := acc.Outputs ++ (per.map (fun r => r.Outputs)).flatten,
            Modules := acc.Modules ++ (per.map (fun r => r.Modules)).flatten,
            Resources := acc.Resources ++ (per.map (fun r => r.Resources)).flatten } := by
  induction h generalizing acc with
  | nil => simp
  | cons hhead _ ih =>
    rw [List.cons_append, parseLoop_cons_ok result name _ _ acc _ hhead, ih]
    simp [List.append_assoc]

theorem parseLoop_shape (result : TFModule) (name : String) (trees : List File)
    (acc : Collected) (doc : Option TFModule) (err : Option String)
    (h : parseLoop result name trees acc = .returned doc err) :
    (err = none → ∃ d, doc = some d ∧ d.Title = result.Title)
      ∧ (err ≠ none → doc = some result) := by
  induction trees generalizing acc with
  | nil =>
    simp only [parseLoop, Call.returned.injEq] at h
    obtain ⟨hdoc, herr⟩ := h
    subst hdoc; subst herr
    exact ⟨fun _ => ⟨_, rfl, rfl⟩, fun hne => absurd rfl hne⟩
  | cons tree trees ih =>
    have herrCase : ∀ e : String, Call.returned (some result) (some e) = .returned doc err →
        (err = none → ∃ d, doc = some d ∧ d.Title = result.Title)
          ∧ (err ≠ none → doc = some result) := by
      intro e he
      simp only [Call.returned.injEq] at he
      obtain ⟨hdoc, herr⟩ := he
      subst hdoc; subst herr
      exact ⟨fun hn => (by cases hn), fun _ => rfl⟩
    cases hc : extractComments tree.Comments with
    | none => simp [parseLoop, hc] at h
    | some comments =>
      cases hv : extractValues tree.Node with
      | none => simp [parseLoop, hc, hv] at h
      | some values =>
        cases h1 : extractVariables values with
        | panicked => simp [parseLoop, hc, hv, h1] at h
        | returned xs1 e1 =>
          cases e1 with
          | some e => simp only [parseLoop, hc, hv, h1] at h; exact herrCase e h
          | none =>
            cases h2 : extractOutputs values with
            | panicked => simp [parseLoop, hc, hv, h1, h2] at h
            | returned xs2 e2 =>
              cases e2 with
              | some e => simp only [parseLoop, hc, hv, h1, h2] at h; exact herrCase e h
              | none =>
                cases h3 : extractModules values with
                | panicked => simp [parseLoop, hc, hv, h1, h2, h3] at h
                | returned xs3 e3 =>
                  cases e3 with
                  | some e =>
                    simp only [parseLoop, hc, hv, h1, h2, h3] at h; exact herrCase e h
                  | none =>
                    cases h4 : extractResources values with
                    | panicked => simp [parseLoop, hc, hv, h1, h2, h3, h4] at h
                    | returned xs4 e4 =>
                      cases e4 with
                      | some e =>
                        simp only [parseLoop, hc, hv, h1, h2, h3, h4] at h
                        exact herrCase e h
                      | none =>
                        simp only [parseLoop, hc, hv, h1, h2, h3, h4] at h
                        exact ih _ h

/-- C21. Called with the empty module name, `Parse` returns the error "error
moduleName cannot be empty" whatever the texts and the parser, which it does
not consult; and whenever `Parse` returns without error, the module name is not
empty and the document returned has it as its `Title`. -/
theorem Parse_empty_name_and_title (hclParse : String → Except String File)
    (hclText : List String) :
    Parse hclParse hclText ""
        = .returned
            (some { Path := "", Title := "", Link := "", Variables := [], Outputs := [],
                    Resources := [], Modules := [], Description := "" })
            (some "error moduleName cannot be empty")
      ∧ ∀ (moduleName : String) (doc : Option TFModule),
          Parse hclParse hclText moduleName = .returned doc none →
            moduleName ≠ "" ∧ ∃ d, doc = some d ∧ d.Title = moduleName := by
  refine ⟨by simp [Parse], ?_⟩
  intro moduleName doc h
  by_cases hname : moduleName = ""
  · simp [Parse, hname] at h
  · refine ⟨hname, ?_⟩
    simp only [Parse, hname, if_false] at h
    cases hp : parseTexts hclParse hclText [] with
    | error e => simp [hp] at h
    | ok trees =>
      simp only [hp] at h
      exact (parseLoop_shape _ _ _ _ _ _ h).1 rfl

/-- C22. When every text parses and every file is processed without error (file
`i` yielding the comments and the classifier results `per[i]`), `Parse` returns
without error the document whose `Variables`, `Outputs`, `Modules` and
`Resources` are the per-file results of `extractVariables`, `extractOutputs`,
`extractModules` and `extractResources` concatenated in file order, and whose
`Description` is `extractDescription` of the files' comments concatenated in
file order. -/
theorem Parse_concatenates (hclParse : String → Except String File)
    (hclText : List String) (trees : List File) (per : List Collected) (moduleName : String)
    (hname : moduleName ≠ "")
    (hparse : List.Forall₂ (fun text tree => hclParse text = .ok tree) hclText trees)
    (hfiles : List.Forall₂ FileYields trees per) :
    Parse hclParse hclText moduleName
      = .returned
          (some { Path := "", Title := moduleName, Link := "",
                  Variables := (per.map (fun r => r.Variables)).flatten,
                  Outputs := (per.map (fun r => r.Outputs)).flatten,
                  Resources := (per.map (fun r => r.Resources)).flatten,
                  Modules := (per.map (fun r => r.Modules)).flatten,
                  Description :=
                    extractDescription (per.map (fun r => r.Comments)).flatten moduleName })
          none := by
  have hloop := parseLoop_prefix_ok
    { Path := "", Title := moduleName, Link := "", Variables := [], Outputs := [],
      Resources := [], Modules := [], Description := "" }
    moduleName trees [] per ⟨[], [], [], [], []⟩ hfiles
  simp only [List.append_nil, List.nil_append] at hloop
  simp only [Parse, hname, if_false, parseTexts_ok hclParse hclText trees [] hparse,
    List.nil_append, hloop, parseLoop]

theorem Parse_concatenates_witness :
    Parse sampleParser ["a", "c"] "test"
      = .returned
          (some { Path := "", Title := "test", Link := "",
                  Variables := [⟨"test", "string", "", "", true⟩],
                  Outputs := [⟨"output desc", "val"⟩],
                  Resources := [], Modules := [], Description := "test" })
          none :=
  (Parse_concatenates sampleParser ["a", "c"] [sampleFileA, sampleFileC]
    [⟨[⟨"test", 1, 1⟩], [⟨"test", "string", "", "", true⟩], [], [], []⟩,
     ⟨[], [], [⟨"output desc", "val"⟩], [], []⟩]
    "test" (by decide)
    (List.Forall₂.cons (by simp [sampleParser])
      (List.Forall₂.cons (by simp [sampleParser]) List.Forall₂.nil))
    (List.Forall₂.cons
      (by
        unfold FileYields
        exact ⟨by decide,
          [⟨[("variable", ["test"])], [("type", "string")], ⟨"test", 1, 1⟩⟩],
          by decide, by decide, by decide, by decide, by decide⟩)
      (List.Forall₂.cons
        (by
          unfold FileYields
          exact ⟨by decide,
            [⟨[("output", ["val"])], [("description", "output desc")], ⟨"", 0, 0⟩⟩],
            by decide, by decide, by decide, by decide, by decide⟩)
        List.Forall₂.nil))).trans (by decide)

/-- C23. When the files before some file are processed without error and a
classifier fails on that file with the error `e` (the classifiers run before it
on that file having succeeded), `Parse` returns `e`, and the document returned
with it has only its `Title`: its `Variables`, `Outputs`, `Resources` and
`Modules` are empty and its `Description` is empty, whatever the earlier files
yielded.  More generally every document that `Parse` returns together with an
error has these five fields empty. -/
theorem Parse_classifier_error_not_partial (hclParse : String → Except String File)
    (hclText : List String) (pre post : List File) (tree : File) (per : List Collected)
    (moduleName e : String) (comments : List Comment) (values : List Value)
    (hname : moduleName ≠ "")
    (hparse : List.Forall₂ (fun text t => hclParse text = .ok t) hclText
      (pre ++ tree :: post))
    (hpre : List.Forall₂ FileYields pre per)
    (hcomments : extractComments tree.Comments = some comments)
    (hvalues : extractValues tree.Node = some values)
    (hfail : (∃ xs, extractVariables values = .returned xs (some e))
      ∨ ((∃ xs, extractVariables values = .returned xs none)
        ∧ ((∃ xs, extractOutputs values = .returned xs (some e))
          ∨ ((∃ xs, extractOutputs values = .returned xs none)
            ∧ ((∃ xs, extractModules values = .returned xs (some e))
              ∨ ((∃ xs, extractModules values = .returned xs none)
                ∧ ∃ xs, extractResources values = .returned xs (some e))))))) :
    Parse hclParse hclText moduleName
        = .returned
            (some { Path := "", Title := moduleName, Link := "", Variables := [],
                    Outputs := [], Resources := [], Modules := [], Description := "" })
            (some e)
      ∧ ∀ (texts : List String) (name : String) (d : TFModule) (err : String),
          Parse hclParse texts name = .returned (some d) (some err) →
            d.Variables = [] ∧ d.Outputs = [] ∧ d.Resources = [] ∧ d.Modules = []
              ∧ d.Description = "" := by
  constructor
  · simp only [Parse, hname, if_false,
      parseTexts_ok hclParse hclText (pre ++ tree :: post) [] hparse, List.nil_append]
    rw [parseLoop_prefix_ok _ moduleName pre (tree :: post) per _ hpre]
    rcases hfail with ⟨xs, h1⟩ | ⟨⟨xs1, h1⟩, hfail⟩
    · simp only [parseLoop, hcomments, hvalues, h1]
    · rcases hfail with ⟨xs, h2⟩ | ⟨⟨xs2, h2⟩, hfail⟩
      · simp only [parseLoop, hcomments, hvalues, h1, h2]
      · rcases hfail with ⟨xs, h3⟩ | ⟨⟨xs3, h3⟩, xs, h4⟩
        · simp only [parseLoop, hcomments, hvalues, h1, h2, h3]
        · simp only [parseLoop, hcomments, hvalues, h1, h2, h3, h4]
  · intro texts name d err h
    by_cases hn : name = ""
    · simp only [Parse, hn, if_true, Call.returned.injEq, Option.some.injEq] at h
      rw [← h.1]
      exact ⟨rfl, rfl, rfl, rfl, rfl⟩
    · simp only [Parse, hn, if_false] at h
      cases hp : parseTexts hclParse texts [] with
      | error e2 => simp [hp] at h
      | ok trees =>
        simp only [hp] at h
        have hdoc := (parseLoop_shape _ _ _ _ _ _ h).2 (by simp)
        simp only [Option.some.injEq] at hdoc
        rw [hdoc]
        exact ⟨rfl, rfl, rfl, rfl, rfl⟩

theorem Parse_classifier_error_not_partial_witness :
    Parse sampleParser ["a", "b", "c"] "test"
        = .returned
            (some { Path := "", Title := "test", Link := "", Variables := [],
                    Outputs := [], Resources := [], Modules := [], Description := "" })
            (some "source is required for a variable")
      ∧ ∀ (texts : List String) (name : String) (d : TFModule) (err : String),
          Parse sampleParser texts name = .returned (some d) (some err) →
            d.Variables = [] ∧ d.Outputs = [] ∧ d.Resources = [] ∧ d.Modules = []
              ∧ d.Description = "" :=
  Parse_classifier_error_not_partial sampleParser ["a", "b", "c"] [sampleFileA] [sampleFileC]
    sampleFileB [⟨[⟨"test", 1, 1⟩], [⟨"test", "string", "", "", true⟩], [], [], []⟩]
    "test" "source is required for a variable" []
    [⟨[("output", ["val"])], [("description", "output desc")], ⟨"", 0, 0⟩⟩,
     ⟨[("module", ["m"])], [], ⟨"", 0, 0⟩⟩]
    (by decide)
    (List.Forall₂.cons (by simp [sampleParser]) (List.Forall₂.cons (by simp [sampleParser])
      (List.Forall₂.cons (by simp [sampleParser]) List.Forall₂.nil)))
    (List.Forall₂.cons
      (by
        unfold FileYields
        exact ⟨by decide,
          [⟨[("variable", ["test"])], [("type", "string")], ⟨"test", 1, 1⟩⟩],
          by decide, by decide, by decide, by decide, by decide⟩)
      List.Forall₂.nil)
    (by decide) (by decide)
    (Or.inr ⟨⟨[], by decide⟩, Or.inr ⟨⟨[⟨"output desc", "val"⟩], by decide⟩,
      Or.inl ⟨[], by decide⟩⟩⟩)

end TfDocs
